import Mathlib

/-!
Verification of the CiderPress2 ndocs documentation pipeline.

This file gives a shallow embedding of the text-rewriting core of the
repository: the Markdown link rewriter of `ndocs/formatdoc/convert.py`
(function `fixlinks` with its regex `\[.*\]\(([^\)]+)\)` and the path
resolution rules) and the prev/next navigation stitcher of
`ndocs/prevnext.py` (regex `^\s*<div id="prevnext">\s*$.(.*?)^\s*<\/div>`
with DOTALL and MULTILINE, functions `editFile`, `generatePrevNext`, and
the compare-before-replace loop of `main`).

Text is modelled as `List Char`.  Python's backtracking regex searches are
embedded as explicit executable search functions whose comments explain,
step by step, which regex construct each piece models.  File I/O is
modelled by explicit content passing; the file system used by the
navigation driver is an association list from names to contents.
-/

/-- Character access with an out-of-range default.  The default `'x'` is a
character that is neither whitespace nor a newline, so that membership
tests against `'\n'` and whitespace classes fail out of range. -/
def getC (cs : List Char) (i : Nat) : Char :=
  cs.getD i 'x'

namespace FormatDoc

/-- `SOURCE_ROOT` from convert.py. -/
def SOURCE_ROOT : List Char :=
  "https://github.com/fadden/CiderPress2/blob/main/".toList

/-- `posixpath.dirname`: everything up to the last `/`, with trailing
slashes stripped unless the result consists only of slashes.  Mirrors
CPython's `posixpath.dirname` (`head = p[:i]` for `i = p.rfind('/') + 1`,
then `head.rstrip('/')` when `head` is nonempty and not all slashes). -/
def dirnameL (p : List Char) : List Char :=
  let head := (p.reverse.dropWhile (fun c => c != '/')).reverse
  if head.isEmpty || head.all (fun c => c == '/') then head
  else (head.reverse.dropWhile (fun c => c == '/')).reverse

/-- `posixpath.basename`: everything after the last `/`. -/
def basenameL (p : List Char) : List Char :=
  (p.reverse.takeWhile (fun c => c != '/')).reverse

/-- One step of convert.py's `while modLink[0:3] == "../"` loop, iterated
with explicit fuel (the loop consumes three characters of `modLink` per
iteration, so `modLink.length` steps always suffice). -/
def stripDotsGo : Nat → List Char → List Char → List Char × List Char
  | 0, modLink, basePath => (modLink, basePath)
  | fuel + 1, modLink, basePath =>
    if modLink.take 3 = ['.', '.', '/'] then
      stripDotsGo fuel (modLink.drop 3) (dirnameL basePath)
    else (modLink, basePath)

/-- The `../`-stripping loop of `fixlinks`: repeatedly remove a leading
`../` from the link while taking `dirname` of the base path. -/
def stripDots (modLink basePath : List Char) : List Char × List Char :=
  stripDotsGo modLink.length modLink basePath

/-- Number of leading `../` segments of a link (fuel form). -/
def leadDotsGo : Nat → List Char → Nat
  | 0, _ => 0
  | fuel + 1, l =>
    if l.take 3 = ['.', '.', '/'] then leadDotsGo fuel (l.drop 3) + 1 else 0

/-- Number of leading `../` segments of a link. -/
def leadDots (l : List Char) : Nat :=
  leadDotsGo l.length l

/-- The link rewriting rule applied by `fixlinks` to each matched target
(the body of the `if`/`elif`/`else` over `link`), for a document at
repository path `inpath`:
* `len(link) > 9 and link[-9:] == "-notes.md"`: take `os.path.basename`,
  drop the final two characters (`"md"`) and append `"html"`;
* `link[0] == "#" or link[0:4] == "http"`: leave unchanged (`link` is
  never empty here: the regex group `[^\)]+` requires one character);
* otherwise strip leading `../` segments against `dirname(inpath)` and
  prefix the canonical source root. -/
def resolveLink (inpath link : List Char) : List Char :=
  if 9 < link.length ∧ link.drop (link.length - 9) = "-notes.md".toList then
    (basenameL link).take ((basenameL link).length - 2) ++ "html".toList
  else if getC link 0 = '#' ∨ link.take 4 = "http".toList then
    link
  else
    SOURCE_ROOT ++
      (if (stripDots link (dirnameL inpath)).2.isEmpty
       then (stripDots link (dirnameL inpath)).1
       else (stripDots link (dirnameL inpath)).2 ++
         '/' :: (stripDots link (dirnameL inpath)).1)

/-- Attempt to match the regex `\[.*\]\(([^\)]+)\)` at the start of `cs`
(Python `re`, no DOTALL: `.` excludes `'\n'`, while `[^\)]` excludes only
`')'`).  The first character must be `'['`.  The greedy `.*` is modelled
by trying display lengths `m` from the longest newline-free run downwards;
for each `m` the literal `](` must follow, then the group `[^\)]+` is the
maximal `')'`-free run, which must be nonempty and followed by `')'`
(shorter group splits cannot succeed, because the character after a
shorter split is not `')'`).  Returns `(before, target, after)` where
`before` runs from the `'['` through the `'('`, and `after` is the text
after the closing `')'`. -/
def matchAt (cs : List Char) : Option (List Char × List Char × List Char) :=
  match cs with
  | '[' :: rest =>
    ((List.range ((rest.takeWhile (fun ch => ch != '\n')).length + 1)).reverse).findSome?
      (fun m =>
        match rest.drop m with
        | ']' :: '(' :: rest2 =>
          let t := rest2.takeWhile (fun ch => ch != ')')
          if t.isEmpty then none
          else
            match rest2.drop t.length with
            | ')' :: tail => some ('[' :: rest.take m ++ ']' :: '(' :: [], t, tail)
            | _ => none
        | _ => none)
  | _ => none

/-- Leftmost-match search for `findChunk = \[.*\]\(([^\)]+)\)` in
convert.py: Python's `re.search` tries each start position from the left
and takes the first position where the pattern matches.  Returns the text
before and including `](`, the group (the target), and the text after the
closing `')'`; the original text is `before ++ target ++ ')' :: after`. -/
def findChunkSearch : List Char → Option (List Char × List Char × List Char)
  | [] => none
  | c :: rest =>
    match matchAt (c :: rest) with
    | some r => some r
    | none => (findChunkSearch rest).map (fun r => (c :: r.1, r.2.1, r.2.2))

/-- The rewriting `while True` loop of `fixlinks`, fuel form: on each
match, emit everything up to the target verbatim (`fileData[startPos :
linkSpan[0]]`), then the resolved target, then the rest of the match (the
single `')'`), and continue scanning after the match.  The loop consumes
at least five characters per iteration, so `cs.length` fuel suffices. -/
def fixlinksGo (inpath : List Char) : Nat → List Char → List Char
  | 0, cs => cs
  | fuel + 1, cs =>
    match findChunkSearch cs with
    | none => cs
    | some (before, t, tail) =>
      before ++ resolveLink inpath t ++ ')' :: fixlinksGo inpath fuel tail

/-- The body of `fixlinks` on decoded text: rewrite every regex match. -/
def fixlinks (inpath cs : List Char) : List Char :=
  fixlinksGo inpath cs.length cs

/-- `encoding="utf-8-sig"`: reading strips one leading byte-order mark. -/
def stripBOM : List Char → List Char
  | [] => []
  | c :: rest => if c = '\uFEFF' then rest else c :: rest

/-- `fixlinks` from raw file content: decode (dropping a single leading
BOM), then rewrite the links. -/
def fixlinksText (inpath raw : List Char) : List Char :=
  fixlinks inpath (stripBOM raw)

end FormatDoc

namespace FormatDoc

/-- Dropping the length of the `takeWhile` prefix is `dropWhile`. -/
theorem drop_takeWhile_length {α : Type} (p : α → Bool) :
    ∀ l : List α, l.drop (l.takeWhile p).length = l.dropWhile p
  | [] => rfl
  | c :: l => by
    by_cases hp : p c
    · simp [List.takeWhile_cons, List.dropWhile_cons, hp, drop_takeWhile_length p l]
    · simp [List.takeWhile_cons, List.dropWhile_cons, hp]

/-- Soundness of `matchAt`: a match decomposes the input and the target is
nonempty. -/
theorem matchAt_sound {cs before t tail : List Char}
    (h : matchAt cs = some (before, t, tail)) :
    cs = before ++ t ++ ')' :: tail ∧ t ≠ [] := by
  match cs with
  | [] => simp [matchAt] at h
  | c :: rest =>
    by_cases hc : c = '['
    · subst hc
      simp only [matchAt] at h
      obtain ⟨m, hmem, hm⟩ := List.exists_of_findSome?_eq_some h
      split at hm
      next rest2 heq =>
        by_cases he : (rest2.takeWhile (fun ch => ch != ')')).isEmpty = true
        · rw [if_pos he] at hm
          exact absurd hm (by simp)
        · rw [if_neg he] at hm
          split at hm
          next tail2 heq2 =>
            simp only [Option.some.injEq, Prod.mk.injEq] at hm
            obtain ⟨hb, ht, htl⟩ := hm
            subst hb; subst ht; subst htl
            constructor
            · have h1 : rest.take m ++ rest.drop m = rest := List.take_append_drop m rest
              have h2 : rest2.takeWhile (fun ch => ch != ')') ++
                  rest2.drop (rest2.takeWhile (fun ch => ch != ')')).length = rest2 := by
                rw [drop_takeWhile_length]
                exact List.takeWhile_append_dropWhile _ _
              rw [heq2] at h2
              simp only [List.cons_append, List.append_assoc, List.nil_append]
              rw [h2, ← heq, h1]
            · intro hnil
              rw [hnil] at he
              exact he rfl
          next => exact absurd hm (by simp)
      next => exact absurd hm (by simp)
    · have : matchAt (c :: rest) = none := by
        unfold matchAt
        split
        next h2 => cases h2; exact absurd rfl hc
        next => rfl
      rw [this] at h; exact absurd h (by simp)

/-- Soundness of the leftmost search: a result decomposes the input, with a
nonempty target. -/
theorem findChunkSearch_sound {cs before t tail : List Char}
    (h : findChunkSearch cs = some (before, t, tail)) :
    cs = before ++ t ++ ')' :: tail ∧ t ≠ [] := by
  induction cs generalizing before t tail with
  | nil => simp [findChunkSearch] at h
  | cons c rest ih =>
    rw [findChunkSearch] at h
    split at h
    next r heq =>
      injection h with h1
      subst h1
      exact matchAt_sound heq
    next heq =>
      simp only [Option.map_eq_some'] at h
      obtain ⟨⟨b1, t1, l1⟩, hr, hre⟩ := h
      simp only [Prod.mk.injEq] at hre
      obtain ⟨h1, h2, h3⟩ := hre
      subst h1; subst h2; subst h3
      obtain ⟨hdec, hne⟩ := ih hr
      refine ⟨?_, hne⟩
      rw [hdec]
      simp [List.cons_append, List.append_assoc]

/-- The tail of a match is strictly shorter than the input. -/
theorem findChunkSearch_tail_lt {cs before t tail : List Char}
    (h : findChunkSearch cs = some (before, t, tail)) :
    tail.length < cs.length := by
  obtain ⟨hdec, -⟩ := findChunkSearch_sound h
  rw [hdec]
  simp only [List.length_append, List.length_cons]
  omega

/-- The fuel of `fixlinksGo` is irrelevant once it covers the input length,
so the fuel embedding computes the limit of the `while True` loop. -/
theorem fixlinksGo_congr (inpath : List Char) :
    ∀ n cs f1 f2, cs.length ≤ n → cs.length ≤ f1 → cs.length ≤ f2 →
      fixlinksGo inpath f1 cs = fixlinksGo inpath f2 cs := by
  intro n
  induction n with
  | zero =>
    intro cs f1 f2 hn _ _
    have : cs = [] := List.length_eq_zero.mp (Nat.le_zero.mp hn)
    subst this
    cases f1 <;> cases f2 <;> simp [fixlinksGo, findChunkSearch]
  | succ n ih =>
    intro cs f1 f2 hn h1 h2
    cases hcs : cs with
    | nil =>
      subst hcs
      cases f1 <;> cases f2 <;> simp [fixlinksGo, findChunkSearch]
    | cons c rest =>
      subst hcs
      have hl : 0 < (c :: rest).length := by simp
      cases f1 with
      | zero => omega
      | succ a =>
        cases f2 with
        | zero => omega
        | succ b =>
          simp only [fixlinksGo]
          split
          next => rfl
          next before t tail heq =>
            have hlt := findChunkSearch_tail_lt heq
            have : fixlinksGo inpath a tail = fixlinksGo inpath b tail :=
              ih tail a b (by omega) (by omega) (by omega)
            rw [this]

/-- Unfolding: no match leaves the text unchanged. -/
theorem fixlinks_none {inpath cs : List Char}
    (h : findChunkSearch cs = none) : fixlinks inpath cs = cs := by
  unfold fixlinks
  cases hcs : cs.length with
  | zero => rfl
  | succ k => simp [fixlinksGo, h]

/-- Unfolding: a match emits the text through `](` verbatim, the resolved
target, the closing parenthesis, and the rewritten remainder. -/
theorem fixlinks_some {inpath cs before t tail : List Char}
    (h : findChunkSearch cs = some (before, t, tail)) :
    fixlinks inpath cs =
      before ++ resolveLink inpath t ++ ')' :: fixlinks inpath tail := by
  have hlt := findChunkSearch_tail_lt h
  unfold fixlinks
  cases hcs : cs.length with
  | zero => omega
  | succ k =>
    simp only [fixlinksGo, h]
    have : fixlinksGo inpath k tail = fixlinksGo inpath tail.length tail :=
      fixlinksGo_congr inpath tail.length tail k tail.length (le_refl _)
        (by omega) (le_refl _)
    rw [this]

end FormatDoc

namespace FormatDoc

/-- The segmentation induced by the rewriting loop: the list of
`(verbatim, target)` pieces of each match in scan order, and the final
unmatched tail (fuel form, same recursion as `fixlinksGo`). -/
def segsGo : Nat → List Char → List (List Char × List Char) × List Char
  | 0, cs => ([], cs)
  | fuel + 1, cs =>
    match findChunkSearch cs with
    | none => ([], cs)
    | some (before, t, tail) =>
      let r := segsGo fuel tail
      ((before, t) :: r.1, r.2)

/-- The segmentation of a document into match pieces and final tail. -/
def segs (cs : List Char) : List (List Char × List Char) × List Char :=
  segsGo cs.length cs

/-- Reassemble the original text from a segmentation. -/
def joinIn : List (List Char × List Char) → List Char → List Char
  | [], tl => tl
  | (before, t) :: r, tl => before ++ t ++ ')' :: joinIn r tl

/-- Reassemble the rewritten text from a segmentation: identical except
that each target slot holds the resolved target. -/
def joinOut (inpath : List Char) :
    List (List Char × List Char) → List Char → List Char
  | [], tl => tl
  | (before, t) :: r, tl =>
    before ++ resolveLink inpath t ++ ')' :: joinOut inpath r tl

/-- Fuel irrelevance for the segmentation. -/
theorem segsGo_congr :
    ∀ n cs f1 f2, cs.length ≤ n → cs.length ≤ f1 → cs.length ≤ f2 →
      segsGo f1 cs = segsGo f2 cs := by
  intro n
  induction n with
  | zero =>
    intro cs f1 f2 hn _ _
    have : cs = [] := List.length_eq_zero.mp (Nat.le_zero.mp hn)
    subst this
    cases f1 <;> cases f2 <;> simp [segsGo, findChunkSearch]
  | succ n ih =>
    intro cs f1 f2 hn h1 h2
    cases hcs : cs with
    | nil =>
      subst hcs
      cases f1 <;> cases f2 <;> simp [segsGo, findChunkSearch]
    | cons c rest =>
      subst hcs
      cases f1 with
      | zero => simp at h1
      | succ a =>
        cases f2 with
        | zero => simp at h2
        | succ b =>
          simp only [segsGo]
          split
          next => rfl
          next before t tail heq =>
            have hlt := findChunkSearch_tail_lt heq
            have : segsGo a tail = segsGo b tail :=
              ih tail a b (by omega) (by omega) (by omega)
            rw [this]

/-- Unfolding: no match yields the trivial segmentation. -/
theorem segs_none {cs : List Char} (h : findChunkSearch cs = none) :
    segs cs = ([], cs) := by
  unfold segs
  cases hcs : cs.length with
  | zero => rfl
  | succ k => simp [segsGo, h]

/-- Unfolding: a match contributes one `(verbatim, target)` piece. -/
theorem segs_some {cs before t tail : List Char}
    (h : findChunkSearch cs = some (before, t, tail)) :
    segs cs = ((before, t) :: (segs tail).1, (segs tail).2) := by
  have hlt := findChunkSearch_tail_lt h
  unfold segs
  cases hcs : cs.length with
  | zero => omega
  | succ k =>
    simp only [segsGo, h]
    have : segsGo k tail = segsGo tail.length tail :=
      segsGo_congr tail.length tail k tail.length (le_refl _) (by omega)
        (le_refl _)
    rw [this]

/-- The segmentation reassembles the input text exactly. -/
theorem segs_joinIn : ∀ (n : Nat) (cs : List Char), cs.length ≤ n →
    joinIn (segs cs).1 (segs cs).2 = cs := by
  intro n
  induction n with
  | zero =>
    intro cs hn
    have : cs = [] := List.length_eq_zero.mp (Nat.le_zero.mp hn)
    subst this
    simp [segs, segsGo, joinIn]
  | succ n ih =>
    intro cs hn
    cases h : findChunkSearch cs with
    | none => simp [segs_none h, joinIn]
    | some r =>
      obtain ⟨before, t, tail⟩ := r
      have hlt := findChunkSearch_tail_lt h
      obtain ⟨hdec, -⟩ := findChunkSearch_sound h
      rw [segs_some h]
      simp only [joinIn]
      rw [ih tail (by omega), ← hdec]

/-- The rewriting loop emits exactly the reassembly of the segmentation
with each target resolved. -/
theorem segs_joinOut : ∀ (n : Nat) (inpath cs : List Char), cs.length ≤ n →
    fixlinks inpath cs = joinOut inpath (segs cs).1 (segs cs).2 := by
  intro n
  induction n with
  | zero =>
    intro inpath cs hn
    have : cs = [] := List.length_eq_zero.mp (Nat.le_zero.mp hn)
    subst this
    simp [segs, segsGo, joinOut, fixlinks, fixlinksGo]
  | succ n ih =>
    intro inpath cs hn
    cases h : findChunkSearch cs with
    | none => simp [segs_none h, joinOut, fixlinks_none h]
    | some r =>
      obtain ⟨before, t, tail⟩ := r
      have hlt := findChunkSearch_tail_lt h
      rw [segs_some h, fixlinks_some h]
      simp only [joinOut]
      rw [ih inpath tail (by omega)]

/-- Fuel irrelevance for the `../` counting loop. -/
theorem leadDotsGo_congr :
    ∀ n l f1 f2, l.length ≤ n → l.length ≤ f1 → l.length ≤ f2 →
      leadDotsGo f1 l = leadDotsGo f2 l := by
  intro n
  induction n with
  | zero =>
    intro l f1 f2 hn _ _
    have : l = [] := List.length_eq_zero.mp (Nat.le_zero.mp hn)
    subst this
    cases f1 <;> cases f2 <;> simp [leadDotsGo]
  | succ n ih =>
    intro l f1 f2 hn h1 h2
    by_cases hd : l.take 3 = ['.', '.', '/']
    · have hlen : 3 ≤ l.length := by
        have := congrArg List.length hd
        simp [List.length_take] at this
        omega
      cases f1 with
      | zero => omega
      | succ a =>
        cases f2 with
        | zero => omega
        | succ b =>
          simp only [leadDotsGo, hd, if_pos]
          have : leadDotsGo a (l.drop 3) = leadDotsGo b (l.drop 3) :=
            ih (l.drop 3) a b (by simp [List.length_drop]; omega)
              (by simp [List.length_drop]; omega)
              (by simp [List.length_drop]; omega)
          rw [this]
    · cases f1 with
      | zero =>
        cases f2 with
        | zero => rfl
        | succ b => simp [leadDotsGo, hd]
      | succ a =>
        cases f2 with
        | zero => simp [leadDotsGo, hd]
        | succ b => simp [leadDotsGo, hd]

/-- Unfolding `leadDots` when a `../` segment leads. -/
theorem leadDots_cons {l : List Char} (h : l.take 3 = ['.', '.', '/']) :
    leadDots l = leadDots (l.drop 3) + 1 := by
  have hlen : 3 ≤ l.length := by
    have := congrArg List.length h
    simp [List.length_take] at this
    omega
  unfold leadDots
  cases hl : l.length with
  | zero => omega
  | succ k =>
    simp only [leadDotsGo, h, if_pos]
    have : leadDotsGo k (l.drop 3) = leadDotsGo (l.drop 3).length (l.drop 3) :=
      leadDotsGo_congr (l.drop 3).length (l.drop 3) k (l.drop 3).length
        (le_refl _) (by simp [List.length_drop]; omega) (le_refl _)
    rw [this]

/-- Unfolding `leadDots` when no `../` segment leads. -/
theorem leadDots_nil {l : List Char} (h : l.take 3 ≠ ['.', '.', '/']) :
    leadDots l = 0 := by
  unfold leadDots
  cases hl : l.length with
  | zero => rfl
  | succ k => simp [leadDotsGo, h]

/-- Fuel irrelevance for the `../`-stripping loop. -/
theorem stripDotsGo_congr :
    ∀ n ml bp f1 f2, ml.length ≤ n → ml.length ≤ f1 → ml.length ≤ f2 →
      stripDotsGo f1 ml bp = stripDotsGo f2 ml bp := by
  intro n
  induction n with
  | zero =>
    intro ml bp f1 f2 hn _ _
    have : ml = [] := List.length_eq_zero.mp (Nat.le_zero.mp hn)
    subst this
    cases f1 <;> cases f2 <;> simp [stripDotsGo]
  | succ n ih =>
    intro ml bp f1 f2 hn h1 h2
    by_cases hd : ml.take 3 = ['.', '.', '/']
    · have hlen : 3 ≤ ml.length := by
        have := congrArg List.length hd
        simp [List.length_take] at this
        omega
      have hld : (ml.drop 3).length = ml.length - 3 := by
        simp [List.length_drop]
      cases f1 with
      | zero => omega
      | succ a =>
        cases f2 with
        | zero => omega
        | succ b =>
          simp only [stripDotsGo, hd, if_pos]
          exact ih (ml.drop 3) (dirnameL bp) a b (by omega) (by omega)
            (by omega)
    · cases f1 with
      | zero =>
        cases f2 with
        | zero => rfl
        | succ b => simp [stripDotsGo, hd]
      | succ a =>
        cases f2 with
        | zero => simp [stripDotsGo, hd]
        | succ b => simp [stripDotsGo, hd]

/-- The `../`-stripping loop drops three characters per leading segment and
applies `dirname` once per segment. -/
theorem stripDots_spec : ∀ (n : Nat) (ml bp : List Char), ml.length ≤ n →
    stripDots ml bp = (ml.drop (3 * leadDots ml), dirnameL^[leadDots ml] bp)
    := by
  intro n
  induction n with
  | zero =>
    intro ml bp hn
    have : ml = [] := List.length_eq_zero.mp (Nat.le_zero.mp hn)
    subst this
    simp [stripDots, stripDotsGo, leadDots, leadDotsGo]
  | succ n ih =>
    intro ml bp hn
    by_cases hd : ml.take 3 = ['.', '.', '/']
    · have hlen : 3 ≤ ml.length := by
        have := congrArg List.length hd
        simp [List.length_take] at this
        omega
      have hld : (ml.drop 3).length = ml.length - 3 := by
        simp [List.length_drop]
      have hstep : stripDots ml bp = stripDots (ml.drop 3) (dirnameL bp) := by
        unfold stripDots
        cases hl : ml.length with
        | zero => omega
        | succ k =>
          simp only [stripDotsGo, hd, if_pos]
          exact stripDotsGo_congr (ml.drop 3).length (ml.drop 3) (dirnameL bp)
            k (ml.drop 3).length (le_refl _) (by omega) (le_refl _)
      rw [hstep, ih (ml.drop 3) (dirnameL bp) (by omega), leadDots_cons hd]
      simp only [Prod.mk.injEq]
      constructor
      · rw [List.drop_drop]
        have h3 : 3 + 3 * leadDots (ml.drop 3) = 3 * (leadDots (ml.drop 3) + 1) := by
          ring
        rw [h3]
      · rw [Function.iterate_succ_apply]
    · have hend : stripDots ml bp = (ml, bp) := by
        unfold stripDots
        cases hl : ml.length with
        | zero =>
          have : ml = [] := List.length_eq_zero.mp hl
          subst this
          rfl
        | succ k => simp [stripDotsGo, hd]
      rw [hend, leadDots_nil hd]
      simp

end FormatDoc

namespace FormatDoc

/-- `basename` never contains a slash. -/
theorem slash_not_mem_basenameL (p : List Char) : '/' ∉ basenameL p := by
  unfold basenameL
  intro hmem
  rw [List.mem_reverse] at hmem
  have := List.mem_takeWhile_imp hmem
  simp at this

/-- A list is a Boolean prefix of itself followed by anything. -/
theorem isPrefixOf_append_self : ∀ (l r : List Char), l.isPrefixOf (l ++ r) = true
  | [], _ => by simp [List.isPrefixOf]
  | c :: l, r => by
    simp only [List.cons_append, List.isPrefixOf]
    simp [isPrefixOf_append_self l r]

/-- Claim C2 (corrected), amended claim: for every link target longer
than nine characters that ends in `-notes.md`, the rewritten target is the
target's base name with the trailing `md` replaced by `html` (the
`-notes` part is kept), and it has no directory component; e.g. target
`Foo-notes.md` inside document `DiskArc/Arc/Zip-notes.md` is rewritten to
`Foo-notes.html`. -/
theorem c2_amended :
    (∀ inpath link : List Char, 9 < link.length →
      link.drop (link.length - 9) = "-notes.md".toList →
      resolveLink inpath link =
        (basenameL link).take ((basenameL link).length - 2) ++ "html".toList ∧
      '/' ∉ resolveLink inpath link) ∧
    resolveLink ("DiskArc/Arc/Zip-notes.md".toList) ("Foo-notes.md".toList) =
      "Foo-notes.html".toList := by
  constructor
  · intro inpath link h1 h2
    have hcond : 9 < link.length ∧
        link.drop (link.length - 9) = "-notes.md".toList := ⟨h1, h2⟩
    unfold resolveLink
    rw [if_pos hcond]
    refine ⟨rfl, ?_⟩
    intro hmem
    rcases List.mem_append.mp hmem with h | h
    · exact slash_not_mem_basenameL link ((List.take_sublist _ _).mem h)
    · simp at h
  · decide

/-- Claim C2, counterexample: the code rewrites `Foo-notes.md` to
`Foo-notes.html`, not to `Foo.html` as the claim states. -/
theorem c2_cex :
    resolveLink ("DiskArc/Arc/Zip-notes.md".toList) ("Foo-notes.md".toList) =
      "Foo-notes.html".toList ∧
    resolveLink ("DiskArc/Arc/Zip-notes.md".toList) ("Foo-notes.md".toList) ≠
      "Foo.html".toList := by
  decide

/-- Witness for `c2_amended` at a concrete input. -/
theorem c2_amended_w :
    resolveLink ("DiskArc/Arc/Zip-notes.md".toList) ("Foo-notes.md".toList) =
      (basenameL ("Foo-notes.md".toList)).take
        ((basenameL ("Foo-notes.md".toList)).length - 2) ++ "html".toList ∧
    '/' ∉ resolveLink ("DiskArc/Arc/Zip-notes.md".toList)
      ("Foo-notes.md".toList) :=
  c2_amended.1 ("DiskArc/Arc/Zip-notes.md".toList) ("Foo-notes.md".toList)
    (by decide) (by decide)

/-- Claim C8 (corrected), amended claim: for every link target whose first
character is `#` and which is not classified as a notes link (longer than
nine characters and ending in `-notes.md`), the rewritten target equals
the original target. -/
theorem c8_amended : ∀ (inpath t : List Char),
    ¬(9 < ('#' :: t).length ∧
      ('#' :: t).drop (('#' :: t).length - 9) = "-notes.md".toList) →
    resolveLink inpath ('#' :: t) = '#' :: t := by
  intro inpath t h
  unfold resolveLink
  rw [if_neg h, if_pos (Or.inl (show getC ('#' :: t) 0 = '#' from rfl))]

/-- Claim C8, counterexample: the notes-suffix branch takes priority over
the `#` test, so the anchor target `#x-notes.md` is rewritten. -/
theorem c8_cex :
    resolveLink ("DiskArc/Arc/Zip-notes.md".toList) ("#x-notes.md".toList) =
      "#x-notes.html".toList ∧
    resolveLink ("DiskArc/Arc/Zip-notes.md".toList) ("#x-notes.md".toList) ≠
      "#x-notes.md".toList := by
  decide

/-- Witness for `c8_amended` at a concrete input. -/
theorem c8_amended_w :
    resolveLink ("DiskArc/Arc/Zip-notes.md".toList) ('#' :: "s1".toList) =
      '#' :: "s1".toList :=
  c8_amended ("DiskArc/Arc/Zip-notes.md".toList) ("s1".toList) (by decide)

/-- Claim C9 (confirmed): for targets that are not notes links, the
"leave unchanged" class is the literal four-character test `link[0:4] ==
"http"`: any target starting with `http` is left alone (`httpdocs/x`
included), while targets in any other URL scheme (`ftp://host/x`,
`mailto:a@b`) fall through to the relative-path branch and receive the
canonical source-root prefix. -/
theorem c9 :
    (∀ inpath link : List Char,
      ¬(9 < link.length ∧ link.drop (link.length - 9) = "-notes.md".toList) →
      link.take 4 = "http".toList →
      resolveLink inpath link = link) ∧
    (∀ inpath link : List Char,
      ¬(9 < link.length ∧ link.drop (link.length - 9) = "-notes.md".toList) →
      getC link 0 ≠ '#' → link.take 4 ≠ "http".toList →
      SOURCE_ROOT.isPrefixOf (resolveLink inpath link) = true) ∧
    resolveLink ("DiskArc/Arc/Zip-notes.md".toList) ("httpdocs/x".toList) =
      "httpdocs/x".toList ∧
    resolveLink ("DiskArc/Arc/Zip-notes.md".toList) ("ftp://host/x".toList) =
      SOURCE_ROOT ++ "DiskArc/Arc/ftp://host/x".toList ∧
    resolveLink ("DiskArc/Arc/Zip-notes.md".toList) ("mailto:a@b".toList) =
      SOURCE_ROOT ++ "DiskArc/Arc/mailto:a@b".toList := by
  refine ⟨?_, ?_, by decide, by decide, by decide⟩
  · intro inpath link h1 h2
    unfold resolveLink
    rw [if_neg h1, if_pos (Or.inr h2)]
  · intro inpath link h1 h2 h3
    have hor : ¬(getC link 0 = '#' ∨ link.take 4 = "http".toList) := by
      intro hc
      rcases hc with hc | hc
      · exact h2 hc
      · exact h3 hc
    unfold resolveLink
    rw [if_neg h1, if_neg hor]
    exact isPrefixOf_append_self _ _

/-- Witness for `c9` at concrete inputs. -/
theorem c9_w :
    resolveLink ("DiskArc/Arc/Zip-notes.md".toList) ("httpdocs/x".toList) =
      "httpdocs/x".toList ∧
    SOURCE_ROOT.isPrefixOf
      (resolveLink ("DiskArc/Arc/Zip-notes.md".toList)
        ("ftp://host/x".toList)) = true :=
  ⟨c9.1 ("DiskArc/Arc/Zip-notes.md".toList) ("httpdocs/x".toList) (by decide)
      (by decide),
    c9.2.1 ("DiskArc/Arc/Zip-notes.md".toList) ("ftp://host/x".toList)
      (by decide) (by decide) (by decide)⟩

/-- Claim C7 (confirmed): for a relative target (not a notes link, not an
in-page anchor, not an `http`-prefixed target) with `k` leading `../`
segments, resolution drops the `3 * k` characters of those segments while
taking `dirname` of the current document's directory once per segment,
and outputs the canonical source root followed by the remaining directory
and the remaining target, the directory and its trailing slash being
omitted when all directory components are consumed. -/
theorem c7 :
    (∀ inpath link : List Char,
      ¬(9 < link.length ∧ link.drop (link.length - 9) = "-notes.md".toList) →
      getC link 0 ≠ '#' → link.take 4 ≠ "http".toList →
      resolveLink inpath link =
        SOURCE_ROOT ++
          (if (dirnameL^[leadDots link] (dirnameL inpath)).isEmpty
           then link.drop (3 * leadDots link)
           else dirnameL^[leadDots link] (dirnameL inpath) ++
             '/' :: link.drop (3 * leadDots link))) ∧
    resolveLink ("DiskArc/Arc/Zip-notes.md".toList) ("../../Common/x.c".toList)
      = SOURCE_ROOT ++ "Common/x.c".toList := by
  constructor
  · intro inpath link h1 h2 h3
    have hor : ¬(getC link 0 = '#' ∨ link.take 4 = "http".toList) := by
      intro hc
      rcases hc with hc | hc
      · exact h2 hc
      · exact h3 hc
    unfold resolveLink
    rw [if_neg h1, if_neg hor,
      stripDots_spec link.length link (dirnameL inpath) (le_refl _)]
  · decide

/-- Witness for `c7` at the spec's own example. -/
theorem c7_w :
    resolveLink ("DiskArc/Arc/Zip-notes.md".toList) ("../../Common/x.c".toList)
      = SOURCE_ROOT ++
        (if (dirnameL^[leadDots ("../../Common/x.c".toList)]
              (dirnameL ("DiskArc/Arc/Zip-notes.md".toList))).isEmpty
         then ("../../Common/x.c".toList).drop
           (3 * leadDots ("../../Common/x.c".toList))
         else dirnameL^[leadDots ("../../Common/x.c".toList)]
              (dirnameL ("DiskArc/Arc/Zip-notes.md".toList)) ++
           '/' :: ("../../Common/x.c".toList).drop
             (3 * leadDots ("../../Common/x.c".toList))) :=
  c7.1 ("DiskArc/Arc/Zip-notes.md".toList) ("../../Common/x.c".toList)
    (by decide) (by decide) (by decide)

end FormatDoc

namespace FormatDoc

/-- Claim C3 (corrected), amended claim: the rewriter repeatedly searches
from the current position for the leftmost match of the greedy pattern
`\[.*\]\(([^\)]+)\)`; because `.*` is greedy within a line, several link
constructs on one line are subsumed into a single match whose bracketed
span reaches the last `](target)` of the line, and only that final target
is resolved.  For each match the rewriter emits the text up to the target
verbatim, then the resolved target, then the closing parenthesis, and
resumes immediately after the match; targets inside a match's display
span are emitted verbatim, unresolved. -/
theorem c3_amended :
    (∀ inpath cs : List Char,
      findChunkSearch cs = none → fixlinks inpath cs = cs) ∧
    (∀ inpath cs before t tail : List Char,
      findChunkSearch cs = some (before, t, tail) →
      cs = before ++ t ++ ')' :: tail ∧
      fixlinks inpath cs =
        before ++ resolveLink inpath t ++ ')' :: fixlinks inpath tail) ∧
    fixlinksText ("Top-notes.md".toList) ("[a](q) [b](w)".toList) =
      "[a](q) [b](".toList ++ SOURCE_ROOT ++ "w)".toList := by
  refine ⟨?_, ?_, by decide⟩
  · intro inpath cs h
    exact fixlinks_none h
  · intro inpath cs before t tail h
    exact ⟨(findChunkSearch_sound h).1, fixlinks_some h⟩

/-- Claim C3, counterexample: with two link constructs on one line the
greedy match swallows the first construct into the display span, so its
target `q` is not resolved, contradicting "every link construct in the
document has the path-resolution rule applied to its target". -/
theorem c3_cex :
    fixlinksText ("Top-notes.md".toList) ("[a](q) [b](w)".toList) =
      "[a](q) [b](".toList ++ SOURCE_ROOT ++ "w)".toList ∧
    fixlinksText ("Top-notes.md".toList) ("[a](q) [b](w)".toList) ≠
      "[a](".toList ++ SOURCE_ROOT ++ "q) [b](".toList ++ SOURCE_ROOT ++
        "w)".toList := by
  decide

/-- Witness for `c3_amended` at a concrete input. -/
theorem c3_amended_w :
    "[a](b)".toList = "[a](".toList ++ "b".toList ++ ')' :: ([] : List Char) ∧
    fixlinks ("Top-notes.md".toList) ("[a](b)".toList) =
      "[a](".toList ++ resolveLink ("Top-notes.md".toList) ("b".toList) ++
        ')' :: fixlinks ("Top-notes.md".toList) ([] : List Char) :=
  c3_amended.2.1 ("Top-notes.md".toList) ("[a](b)".toList) ("[a](".toList)
    ("b".toList) ([] : List Char) (by decide)

/-- Claim C6 (corrected), amended claim: decoding strips a single leading
byte-order mark from the input (an input not starting with a BOM is
processed as-is), and every character of the decoded input outside of
matched link target spans appears byte-identical in the output: input and
output reassemble from the same segmentation, which differs only in the
target slots. -/
theorem c6_amended :
    (∀ inpath raw : List Char,
      fixlinksText inpath ('\uFEFF' :: raw) = fixlinks inpath raw) ∧
    (∀ inpath raw : List Char, getC raw 0 ≠ '\uFEFF' →
      fixlinksText inpath raw = fixlinks inpath raw) ∧
    (∀ inpath cs : List Char,
      joinIn (segs cs).1 (segs cs).2 = cs ∧
      fixlinks inpath cs = joinOut inpath (segs cs).1 (segs cs).2) := by
  refine ⟨?_, ?_, ?_⟩
  · intro inpath raw
    simp [fixlinksText, stripBOM]
  · intro inpath raw h
    cases raw with
    | nil => rfl
    | cons c rest =>
      have hc : c ≠ '\uFEFF' := h
      simp [fixlinksText, stripBOM, hc]
  · intro inpath cs
    exact ⟨segs_joinIn cs.length cs (le_refl _),
      segs_joinOut cs.length inpath cs (le_refl _)⟩

/-- Claim C6, counterexample: only one leading byte-order mark is
stripped, so an input starting with two BOM characters produces output
that still contains (indeed starts with) a byte-order mark. -/
theorem c6_cex :
    fixlinksText ("Top-notes.md".toList)
        ('\uFEFF' :: '\uFEFF' :: 'x' :: []) = '\uFEFF' :: 'x' :: [] ∧
    '\uFEFF' ∈ ('\uFEFF' :: 'x' :: []) := by
  decide

/-- Witness for `c6_amended` at a concrete input. -/
theorem c6_amended_w :
    fixlinksText ("Top-notes.md".toList) ("hi".toList) =
      fixlinks ("Top-notes.md".toList) ("hi".toList) :=
  c6_amended.2.1 ("Top-notes.md".toList) ("hi".toList) (by decide)

end FormatDoc

namespace Prevnext

/-- Python's `\s` class for `str` patterns: ASCII whitespace
`[ \t\n\r\f\v]`, the file/group/record/unit separators, and the Unicode
whitespace characters. -/
def isPySpace (c : Char) : Bool :=
  c == ' ' || (decide ('\u0009' ≤ c) && decide (c ≤ '\u000d')) ||
  (decide ('\u001c' ≤ c) && decide (c ≤ '\u001f')) || c == '\u0085' ||
  c == '\u00a0' || c == '\u1680' ||
  (decide ('\u2000' ≤ c) && decide (c ≤ '\u200a')) || c == '\u2028' ||
  c == '\u2029' || c == '\u202f' || c == '\u205f' || c == '\u3000'

/-- Length of the maximal whitespace run at the head of a list: the
number of characters a greedy `\s*` consumes. -/
def wsRun : List Char → Nat
  | [] => 0
  | c :: cs => if isPySpace c then wsRun cs + 1 else 0

/-- The literal opening tag of the prevnext marker regex. -/
def openTagL : List Char :=
  "<div id=\"prevnext\">".toList

/-- The literal closing tag of the prevnext marker regex. -/
def closeTagL : List Char :=
  "</div>".toList

/-- `^` in MULTILINE mode: position `p` is the start of the text or is
immediately preceded by a newline. -/
def isLineStart (c : List Char) (p : Nat) : Bool :=
  p == 0 || getC c (p - 1) == '\n'

/-- `\s*<\/div>` matches at position `p`: after the maximal whitespace run
the closing literal follows.  (The greedy `\s*` admits only this split:
the literal starts with the non-whitespace `<`, so consuming less of the
run leaves a whitespace character where `<` is required.) -/
def closesAt (c : List Char) (p : Nat) : Bool :=
  closeTagL.isPrefixOf ((c.drop p).drop (wsRun (c.drop p)))

/-- The lazy `(.*?)^\s*<\/div>`: the group extends to the earliest
position at or after `g0` that starts a line and matches the closing
pattern (Python tries group lengths from shortest to longest). -/
def findClose (c : List Char) (g0 : Nat) : Option Nat :=
  (List.range' g0 (c.length + 1 - g0)).findSome?
    (fun q => if isLineStart c q && closesAt c q then some q else none)

/-- One candidate split of the `\s*$.` after the opening literal: the
`$` can match only where the character is a newline (at the very end `.`
has nothing left to consume), the `.` then consumes that newline, and the
group starts immediately after it at `q2 + j + 1`. -/
def openCand (c : List Char) (q2 j : Nat) : Option (Nat × Nat) :=
  if getC c (q2 + j) == '\n' then
    (findClose c (q2 + j + 1)).map (fun e => (q2 + j + 1, e))
  else none

/-- Attempt to match `^\s*<div id="prevnext">\s*$.(.*?)^\s*<\/div>` with
the whole match starting at `p`: `p` must start a line; the greedy `\s*`
then forces the opening literal to sit at `p + wsRun`; the second greedy
`\s*$` tries the newlines of the following whitespace run from the last
to the first (longest consumption first); the first candidate whose lazy
group finds a closing line wins.  Returns the span `(start, end)` of
group 1. -/
def openMatchAt (c : List Char) (p : Nat) : Option (Nat × Nat) :=
  if isLineStart c p then
    if openTagL.isPrefixOf (c.drop (p + wsRun (c.drop p))) then
      ((List.range
          (wsRun (c.drop (p + wsRun (c.drop p) + openTagL.length)))).reverse).findSome?
        (openCand c (p + wsRun (c.drop p) + openTagL.length))
    else none
  else none

/-- `findChunk.search(fileData)` of prevnext.py: the leftmost whole-match
start wins; returns the span of group 1 (the chunk to replace). -/
def findChunkSearch (c : List Char) : Option (Nat × Nat) :=
  (List.range (c.length + 1)).findSome? (openMatchAt c)

/-- `generatePrevNext`: write a "previous" anchor when `index > 0`, then a
"next" anchor when `index + 1 < len(fileList)`, each pointing at the
neighbouring file name. -/
def generatePrevNext (fileList : List (List Char)) (index : Nat) : List Char :=
  (if 0 < index then
    "    <a href=\"".toList ++ fileList.getD (index - 1) [] ++
      "\" class=\"btn-previous\">&laquo; Previous</a>\n".toList
  else []) ++
  (if index + 1 < fileList.length then
    "    <a href=\"".toList ++ fileList.getD (index + 1) [] ++
      "\" class=\"btn-next\">Next &raquo;</a>\n".toList
  else [])

/-- The content written to the temporary file by `editFile`: when the
marker regex does not match, `editFile` prints a message and returns
before copying anything, leaving the just-created temporary file empty;
when it matches, the temporary receives the text before group 1, the
generated buttons, and the text from the end of group 1 on. -/
def editFileContent (fileList : List (List Char)) (index : Nat)
    (fileData : List Char) : List Char :=
  match findChunkSearch fileData with
  | none => []
  | some (s, e) =>
    fileData.take s ++ generatePrevNext fileList index ++ fileData.drop e

/-- The per-file step of `main`: build the temporary content, then
`filecmp.cmp(name, outFileName, False)` compares the two files by
content; when equal the temporary is removed (the original file and its
timestamp survive), otherwise `os.replace` installs the temporary.
Returns the resulting on-disk content and whether the file was
rewritten. -/
def stitchFile (fileList : List (List Char)) (index : Nat)
    (fileData : List Char) : List Char × Bool :=
  let newData := editFileContent fileList index fileData
  if newData = fileData then (fileData, false) else (newData, true)

/-- Association-list file system: look up a file's content by name. -/
def lookupFS (fs : List (List Char × List Char)) (name : List Char) :
    Option (List Char) :=
  (fs.find? (fun e => e.1 == name)).map (fun e => e.2)

/-- Association-list file system: overwrite a file's content. -/
def setFS (fs : List (List Char × List Char)) (name content : List Char) :
    List (List Char × List Char) :=
  fs.map (fun e => if e.1 == name then (e.1, content) else e)

/-- The `for index in range(len(fileList))` loop of `main` over a file
system: each iteration opens the input (an absent file raises `IOError`,
converted to `LocalError`), opens `name + "_NEW"` with mode `"x"` (an
existing temporary raises `FileExistsError`, likewise converted), then
stitches and compares.  A `LocalError` aborts the whole run: `main`
prints the error, prints `check <outFileName>`, and exits with code 1.
Returns `(exit code, reported temporary name, final file system)`. -/
def stitchGo (fileList : List (List Char)) :
    List Nat → List (List Char × List Char) →
    Nat × Option (List Char) × List (List Char × List Char)
  | [], fs => (0, none, fs)
  | i :: rest, fs =>
    let name := fileList.getD i []
    let tmp := name ++ "_NEW".toList
    match lookupFS fs name with
    | none => (1, some tmp, fs)
    | some content =>
      match lookupFS fs tmp with
      | some _ => (1, some tmp, fs)
      | none =>
        let r := stitchFile fileList i content
        if r.2 then stitchGo fileList rest (setFS fs name r.1)
        else stitchGo fileList rest fs

/-- Run the stitcher over every index of the ordered file list. -/
def stitchRun (fileList : List (List Char))
    (fs : List (List Char × List Char)) :
    Nat × Option (List Char) × List (List Char × List Char) :=
  stitchGo fileList (List.range fileList.length) fs

end Prevnext

namespace Prevnext

/-- The "previous" anchor of the specification, pointing at a file. -/
def prevAnchor (name : List Char) : List Char :=
  "    <a href=\"".toList ++ name ++
    "\" class=\"btn-previous\">&laquo; Previous</a>\n".toList

/-- The "next" anchor of the specification, pointing at a file. -/
def nextAnchor (name : List Char) : List Char :=
  "    <a href=\"".toList ++ name ++
    "\" class=\"btn-next\">Next &raquo;</a>\n".toList

/-- Claim C4 (confirmed): the generated replacement is exactly a
"previous" anchor pointing at position `i - 1` when `i > 0`, followed by
a "next" anchor pointing at position `i + 1` when `i + 1 < n`; nothing
else is produced, and previous comes before next.  The spec's end-to-end
example over `["a.html", "b.html", "c.html"]` is included. -/
theorem c4 :
    (∀ (fileList : List (List Char)) (index : Nat),
      generatePrevNext fileList index =
        (if 0 < index then prevAnchor (fileList.getD (index - 1) []) else [])
          ++
        (if index + 1 < fileList.length then
          nextAnchor (fileList.getD (index + 1) [])
        else [])) ∧
    generatePrevNext ["a.html".toList, "b.html".toList, "c.html".toList] 1 =
      prevAnchor ("a.html".toList) ++ nextAnchor ("c.html".toList) ∧
    generatePrevNext ["a.html".toList, "b.html".toList, "c.html".toList] 0 =
      nextAnchor ("b.html".toList) ∧
    generatePrevNext ["a.html".toList, "b.html".toList, "c.html".toList] 2 =
      prevAnchor ("b.html".toList) := by
  refine ⟨fun fileList index => rfl, by decide, by decide, by decide⟩

/-- Claim C10 (confirmed): the temporary file is named by appending
`_NEW` to the processed file's name and opened in exclusive mode; if a
file of that name already exists, the open fails, the failure becomes a
`LocalError`, and the whole run stops with exit code 1 and the offending
temporary name reported, leaving the file system unchanged. -/
theorem c10 :
    ∀ (fs : List (List Char × List Char)) (name : List Char)
      (rest : List (List Char)) (c t : List Char),
      lookupFS fs name = some c →
      lookupFS fs (name ++ "_NEW".toList) = some t →
      stitchRun (name :: rest) fs =
        (1, some (name ++ "_NEW".toList), fs) := by
  intro fs name rest c t h1 h2
  unfold stitchRun
  have hr : List.range (name :: rest).length =
      0 :: (List.range rest.length).map (· + 1) := by
    rw [List.length_cons, List.range_succ_eq_map]
  rw [hr]
  have h2h : lookupFS fs (name ++ ['_', 'N', 'E', 'W']) = some t := h2
  simp [stitchGo, h1, h2h]

/-- Witness for `c10` at a concrete input. -/
theorem c10_w :
    stitchRun [("a.html".toList)]
        [(("a.html".toList), "x\n".toList),
         (("a.html".toList) ++ "_NEW".toList, [])] =
      (1, some (("a.html".toList) ++ "_NEW".toList),
        [(("a.html".toList), "x\n".toList),
         (("a.html".toList) ++ "_NEW".toList, [])]) :=
  c10 [(("a.html".toList), "x\n".toList),
       (("a.html".toList) ++ "_NEW".toList, [])]
    ("a.html".toList) [] ("x\n".toList) [] (by decide) (by decide)

/-- Claim C1 (code bug): on a file with no marker region the claim says
content is left unaltered, but `editFile` opens the exclusive temporary
before searching and returns without writing when the search fails, so
the temporary stays empty; `main` then finds the empty temporary differs
from the original and `os.replace`s it over the original, truncating the
file to zero bytes.  Evaluated here on content `"hello\n"`. -/
theorem c1_missing_marker_truncates :
    findChunkSearch ("hello\n".toList) = none ∧
    editFileContent ["a.html".toList] 0 ("hello\n".toList) = [] ∧
    stitchFile ["a.html".toList] 0 ("hello\n".toList) = ([], true) ∧
    lookupFS
      (stitchRun ["a.html".toList]
        [("a.html".toList, "hello\n".toList)]).2.2 ("a.html".toList) =
      some [] := by
  decide

end Prevnext

/-- `getC` through `drop`. -/
theorem getC_drop (c : List Char) (p i : Nat) :
    getC (c.drop p) i = getC c (p + i) := by
  simp [getC, List.getD_eq_getElem?_getD, List.getElem?_drop]

/-- `getC` on the left part of an append. -/
theorem getC_append_left {xs : List Char} (ys : List Char) {i : Nat}
    (h : i < xs.length) : getC (xs ++ ys) i = getC xs i := by
  simp [getC, List.getD_eq_getElem?_getD, List.getElem?_append_left h]

/-- `getC` on the right part of an append. -/
theorem getC_append_right {xs : List Char} (ys : List Char) {i : Nat}
    (h : xs.length ≤ i) : getC (xs ++ ys) i = getC ys (i - xs.length) := by
  simp [getC, List.getD_eq_getElem?_getD, List.getElem?_append_right h]

/-- `getC` through `take`. -/
theorem getC_take (c : List Char) {n i : Nat} (h : i < n) :
    getC (c.take n) i = getC c i := by
  simp [getC, List.getD_eq_getElem?_getD, List.getElem?_take_of_lt h]

/-- Out of range, `getC` returns the default `'x'`. -/
theorem getC_default {c : List Char} {i : Nat} (h : c.length ≤ i) :
    getC c i = 'x' :=
  List.getD_eq_default c 'x' h

/-- An in-range `getC` value is a member of the list. -/
theorem getC_mem {c : List Char} {i : Nat} (h : i < c.length) :
    getC c i ∈ c := by
  rw [getC, List.getD_eq_getElem?_getD, List.getElem?_eq_getElem h]
  exact List.getElem_mem h

/-- A position holding a newline is in range (the default is `'x'`). -/
theorem lt_length_of_getC_nl {c : List Char} {i : Nat}
    (h : getC c i = '\n') : i < c.length := by
  by_contra hlt
  rw [getC_default (by omega)] at h
  exact absurd h (by decide)

namespace Prevnext

/-- Pointwise characterization of `wsRun`: exactly `n` characters when
the first `n` positions hold whitespace and position `n` does not (out of
range the default `'x'` is not whitespace, so no length side condition is
needed). -/
theorem wsRun_iff {xs : List Char} {n : Nat} :
    wsRun xs = n ↔
      (∀ i, i < n → isPySpace (getC xs i) = true) ∧
      isPySpace (getC xs n) = false := by
  induction xs generalizing n with
  | nil =>
    simp only [wsRun]
    constructor
    · intro h
      subst h
      exact ⟨by omega, by decide⟩
    · intro ⟨h1, h2⟩
      by_contra hne
      have h0 : 0 < n := by omega
      have := h1 0 h0
      rw [show getC [] 0 = 'x' from rfl] at this
      exact absurd this (by decide)
  | cons c rest ih =>
    by_cases hc : isPySpace c
    · rw [wsRun, if_pos hc]
      constructor
      · intro h
        cases n with
        | zero => omega
        | succ m =>
          have hm : wsRun rest = m := by omega
          obtain ⟨h1, h2⟩ := ih.mp hm
          refine ⟨?_, h2⟩
          intro i hi
          cases i with
          | zero => exact hc
          | succ i2 => exact h1 i2 (by omega)
      · intro ⟨h1, h2⟩
        cases n with
        | zero =>
          rw [show getC (c :: rest) 0 = c from rfl] at h2
          rw [hc] at h2
          exact absurd h2 (by decide)
        | succ m =>
          have : wsRun rest = m := by
            apply ih.mpr
            exact ⟨fun i hi => h1 (i + 1) (by omega), h2⟩
          omega
    · rw [wsRun, if_neg hc]
      constructor
      · intro h
        subst h
        refine ⟨by omega, ?_⟩
        rw [show getC (c :: rest) 0 = c from rfl]
        exact Bool.not_eq_true _ ▸ (by simpa using hc)
      · intro ⟨h1, h2⟩
        by_contra hne
        have h0 : 0 < n := by omega
        have := h1 0 h0
        rw [show getC (c :: rest) 0 = c from rfl] at this
        exact hc (by simpa using this)

/-- Elimination half of `wsRun_iff`, whitespace part. -/
theorem wsRun_ws {xs : List Char} {i : Nat} (h : i < wsRun xs) :
    isPySpace (getC xs i) = true :=
  (wsRun_iff.mp rfl).1 i h

/-- Elimination half of `wsRun_iff`, stop part. -/
theorem wsRun_stop (xs : List Char) :
    isPySpace (getC xs (wsRun xs)) = false :=
  (wsRun_iff.mp rfl).2

/-- A run never passes a non-whitespace position. -/
theorem wsRun_le_of_not_ws {xs : List Char} {i : Nat}
    (h : isPySpace (getC xs i) = false) : wsRun xs ≤ i := by
  by_contra hlt
  rw [wsRun_ws (by omega)] at h
  exact absurd h (by decide)

/-- Splitting a whitespace run: `m` whitespace characters followed by the
rest of the run. -/
theorem wsRun_add {xs : List Char} {m : Nat}
    (h : ∀ i, i < m → isPySpace (getC xs i) = true) :
    wsRun xs = m + wsRun (xs.drop m) := by
  apply wsRun_iff.mpr
  constructor
  · intro i hi
    by_cases him : i < m
    · exact h i him
    · have : i - m < wsRun (xs.drop m) := by omega
      have := wsRun_ws this
      rw [getC_drop] at this
      rw [show m + (i - m) = i by omega] at this
      exact this
  · have := wsRun_stop (xs.drop m)
    rw [getC_drop] at this
    exact this

/-- A whitespace run is insensitive to text after its stop position. -/
theorem wsRun_append_left {xs ys : List Char} (h : wsRun xs < xs.length) :
    wsRun (xs ++ ys) = wsRun xs := by
  apply wsRun_iff.mpr
  constructor
  · intro i hi
    rw [getC_append_left ys (by omega)]
    exact wsRun_ws hi
  · rw [getC_append_left ys h]
    exact wsRun_stop xs

/-- Dropping into a whitespace run shortens it accordingly. -/
theorem wsRun_drop {xs : List Char} {i : Nat} (h : i ≤ wsRun xs) :
    wsRun (xs.drop i) = wsRun xs - i := by
  apply wsRun_iff.mpr
  constructor
  · intro u hu
    rw [getC_drop]
    exact wsRun_ws (by omega)
  · rw [getC_drop]
    rw [show i + (wsRun xs - i) = wsRun xs by omega]
    exact wsRun_stop xs

end Prevnext

namespace Prevnext

/-- Pointwise characterization of Boolean `isPrefixOf`. -/
theorem isPrefixOf_iff_getC {pat xs : List Char} :
    pat.isPrefixOf xs = true ↔
      pat.length ≤ xs.length ∧
      ∀ i, i < pat.length → getC xs i = getC pat i := by
  induction pat generalizing xs with
  | nil =>
    simp [List.isPrefixOf]
  | cons p ps ih =>
    cases xs with
    | nil =>
      simp [List.isPrefixOf]
    | cons x xs2 =>
      simp only [List.isPrefixOf, Bool.and_eq_true, beq_iff_eq, ih,
        List.length_cons]
      constructor
      · intro ⟨hpx, hlen, hall⟩
        refine ⟨by omega, ?_⟩
        intro i hi
        cases i with
        | zero => simpa using hpx.symm
        | succ i2 => exact hall i2 (by omega)
      · intro ⟨hlen, hall⟩
        have h0 := hall 0 (by omega)
        refine ⟨by simpa using h0.symm, by omega, ?_⟩
        intro i hi
        exact hall (i + 1) (by omega)

/-- A mismatch strictly inside both lists: detects that `pat` can never
be a prefix of `xs` extended by anything. -/
def mismatchEarly : List Char → List Char → Bool
  | p :: ps, x :: xs => if p = x then mismatchEarly ps xs else true
  | _, _ => false

/-- An early mismatch defeats the prefix test no matter what follows. -/
theorem mismatchEarly_not_isPrefixOf {pat xs : List Char}
    (h : mismatchEarly pat xs = true) (ys : List Char) :
    pat.isPrefixOf (xs ++ ys) = false := by
  induction pat generalizing xs with
  | nil => simp [mismatchEarly] at h
  | cons p ps ih =>
    cases xs with
    | nil => simp [mismatchEarly] at h
    | cons x xs2 =>
      by_cases hpx : p = x
      · rw [mismatchEarly, if_pos hpx] at h
        subst hpx
        simpa [List.isPrefixOf] using ih h
      · simp [List.isPrefixOf, hpx]

/-- `findSome?` over `[lo, lo + n)` succeeds at the first success. -/
theorem range'_findSome?_intro {β : Type} {f : Nat → Option β}
    {lo n i : Nat} {v : β} (h1 : lo ≤ i) (h2 : i < lo + n)
    (h3 : f i = some v) (h4 : ∀ q, lo ≤ q → q < i → f q = none) :
    (List.range' lo n).findSome? f = some v := by
  induction n generalizing lo with
  | zero => omega
  | succ m ih =>
    rw [List.range'_succ, List.findSome?_cons]
    by_cases hi : i = lo
    · subst hi
      rw [h3]
    · rw [h4 lo (le_refl _) (by omega)]
      exact ih (by omega) (by omega) (fun q hq1 hq2 => h4 q (by omega) hq2)

/-- `findSome?` over `[lo, lo + n)` found its first success. -/
theorem range'_findSome?_elim {β : Type} {f : Nat → Option β}
    {lo n : Nat} {v : β}
    (h : (List.range' lo n).findSome? f = some v) :
    ∃ i, lo ≤ i ∧ i < lo + n ∧ f i = some v ∧
      ∀ q, lo ≤ q → q < i → f q = none := by
  induction n generalizing lo with
  | zero => simp [List.range'] at h
  | succ m ih =>
    rw [List.range'_succ, List.findSome?_cons] at h
    cases hlo : f lo with
    | some w =>
      rw [hlo] at h
      refine ⟨lo, le_refl _, by omega, ?_, by omega⟩
      rw [hlo]
      exact h
    | none =>
      rw [hlo] at h
      obtain ⟨i, hi1, hi2, hi3, hi4⟩ := ih h
      refine ⟨i, by omega, by omega, hi3, ?_⟩
      intro q hq1 hq2
      by_cases hq : q = lo
      · subst hq
        exact hlo
      · exact hi4 q (by omega) hq2

/-- Descending `findSome?` over `[r-1, …, 0]` succeeds at the largest
successful index. -/
theorem revRange_findSome?_intro {β : Type} {f : Nat → Option β}
    {r j : Nat} {v : β} (h1 : j < r) (h2 : f j = some v)
    (h3 : ∀ i, j < i → i < r → f i = none) :
    ((List.range r).reverse).findSome? f = some v := by
  induction r with
  | zero => omega
  | succ m ih =>
    rw [List.range_succ, List.reverse_append]
    simp only [List.reverse_cons, List.reverse_nil, List.nil_append,
      List.cons_append, List.findSome?_cons]
    by_cases hj : j = m
    · subst hj
      rw [h2]
    · rw [h3 m (by omega) (by omega)]
      exact ih (by omega) (fun i hi1 hi2 => h3 i hi1 (by omega))

/-- Descending `findSome?` over `[r-1, …, 0]` found the largest
successful index. -/
theorem revRange_findSome?_elim {β : Type} {f : Nat → Option β}
    {r : Nat} {v : β}
    (h : ((List.range r).reverse).findSome? f = some v) :
    ∃ j, j < r ∧ f j = some v ∧ ∀ i, j < i → i < r → f i = none := by
  induction r with
  | zero => rw [List.range_zero] at h; simp at h
  | succ m ih =>
    rw [List.range_succ, List.reverse_append] at h
    simp only [List.reverse_cons, List.reverse_nil, List.nil_append,
      List.cons_append, List.findSome?_cons] at h
    cases hm : f m with
    | some w =>
      rw [hm] at h
      exact ⟨m, by omega, by rw [hm]; exact h, by omega⟩
    | none =>
      rw [hm] at h
      obtain ⟨j, hj1, hj2, hj3⟩ := ih h
      refine ⟨j, by omega, hj2, ?_⟩
      intro i hi1 hi2
      by_cases him : i = m
      · subst him
        exact hm
      · exact hj3 i hi1 (by omega)

end Prevnext

namespace Prevnext

/-- Unpack a successful `findClose`: the earliest closing line. -/
theorem findClose_elim {c : List Char} {g0 e : Nat}
    (h : findClose c g0 = some e) :
    g0 ≤ e ∧ e ≤ c.length ∧ (isLineStart c e && closesAt c e) = true ∧
    ∀ q, g0 ≤ q → q < e → (isLineStart c q && closesAt c q) = false := by
  unfold findClose at h
  obtain ⟨i, hi1, hi2, hi3, hi4⟩ := range'_findSome?_elim h
  have hg0 : g0 ≤ c.length := by
    by_contra hgt
    have : c.length + 1 - g0 = 0 := by omega
    omega
  by_cases hpred : (isLineStart c i && closesAt c i) = true
  · rw [if_pos hpred] at hi3
    injection hi3 with hie
    subst hie
    refine ⟨hi1, by omega, hpred, ?_⟩
    intro q hq1 hq2
    have := hi4 q hq1 hq2
    by_contra hq
    rw [if_pos (by simpa using hq)] at this
    exact absurd this (by simp)
  · rw [if_neg hpred] at hi3
    exact absurd hi3 (by simp)

/-- Build a successful `findClose` from the earliest closing line. -/
theorem findClose_intro {c : List Char} {g0 e : Nat}
    (h1 : g0 ≤ e) (h2 : e ≤ c.length)
    (h3 : (isLineStart c e && closesAt c e) = true)
    (h4 : ∀ q, g0 ≤ q → q < e → (isLineStart c q && closesAt c q) = false) :
    findClose c g0 = some e := by
  unfold findClose
  apply range'_findSome?_intro h1 (by omega) (by rw [if_pos h3])
  intro q hq1 hq2
  rw [if_neg]
  rw [h4 q hq1 hq2]
  simp

/-- Unpack a successful `openMatchAt`. -/
theorem openMatchAt_elim {c : List Char} {p s e : Nat}
    (h : openMatchAt c p = some (s, e)) :
    isLineStart c p = true ∧
    openTagL.isPrefixOf (c.drop (p + wsRun (c.drop p))) = true ∧
    ∃ j, j < wsRun (c.drop (p + wsRun (c.drop p) + openTagL.length)) ∧
      getC c (p + wsRun (c.drop p) + openTagL.length + j) = '\n' ∧
      s = p + wsRun (c.drop p) + openTagL.length + j + 1 ∧
      findClose c s = some e ∧
      ∀ i, j < i →
        i < wsRun (c.drop (p + wsRun (c.drop p) + openTagL.length)) →
        openCand c (p + wsRun (c.drop p) + openTagL.length) i = none := by
  unfold openMatchAt at h
  by_cases hls : isLineStart c p = true
  · rw [if_pos hls] at h
    by_cases hlit :
        openTagL.isPrefixOf (c.drop (p + wsRun (c.drop p))) = true
    · rw [if_pos hlit] at h
      obtain ⟨j, hj1, hj2, hj3⟩ := revRange_findSome?_elim h
      refine ⟨hls, hlit, j, hj1, ?_, ?_, ?_, hj3⟩ <;>
        · unfold openCand at hj2
          by_cases hnl :
              (getC c (p + wsRun (c.drop p) + openTagL.length + j) == '\n')
                = true
          · rw [if_pos hnl] at hj2
            cases hfc : findClose c
                (p + wsRun (c.drop p) + openTagL.length + j + 1) with
            | none => rw [hfc] at hj2; exact absurd hj2 (by simp)
            | some e2 =>
              rw [hfc] at hj2
              simp only [Option.map_some', Option.some.injEq,
                Prod.mk.injEq] at hj2
              obtain ⟨hs, he⟩ := hj2
              subst hs
              subst he
              first
              | exact (beq_iff_eq).mp hnl
              | rfl
              | exact hfc
          · rw [if_neg hnl] at hj2
            exact absurd hj2 (by simp)
    · rw [if_neg hlit] at h
      exact absurd h (by simp)
  · rw [if_neg hls] at h
    exact absurd h (by simp)

/-- Build a successful `openMatchAt`. -/
theorem openMatchAt_intro {c : List Char} {p j e : Nat}
    (hls : isLineStart c p = true)
    (hlit : openTagL.isPrefixOf (c.drop (p + wsRun (c.drop p))) = true)
    (hj : j < wsRun (c.drop (p + wsRun (c.drop p) + openTagL.length)))
    (hnl : getC c (p + wsRun (c.drop p) + openTagL.length + j) = '\n')
    (hfc : findClose c (p + wsRun (c.drop p) + openTagL.length + j + 1) =
      some e)
    (habove : ∀ i, j < i →
      i < wsRun (c.drop (p + wsRun (c.drop p) + openTagL.length)) →
      openCand c (p + wsRun (c.drop p) + openTagL.length) i = none) :
    openMatchAt c p =
      some (p + wsRun (c.drop p) + openTagL.length + j + 1, e) := by
  unfold openMatchAt
  rw [if_pos hls, if_pos hlit]
  apply revRange_findSome?_intro hj _ habove
  unfold openCand
  rw [if_pos (by simpa using hnl), hfc]
  rfl

/-- Unpack a successful leftmost marker search. -/
theorem search_elim {c : List Char} {s e : Nat}
    (h : findChunkSearch c = some (s, e)) :
    ∃ p, p ≤ c.length ∧ openMatchAt c p = some (s, e) ∧
      ∀ q, q < p → openMatchAt c q = none := by
  unfold findChunkSearch at h
  rw [List.range_eq_range'] at h
  obtain ⟨i, _, hi2, hi3, hi4⟩ := range'_findSome?_elim h
  exact ⟨i, by omega, hi3, fun q hq => hi4 q (by omega) hq⟩

/-- Build a successful leftmost marker search. -/
theorem search_intro {c : List Char} {p : Nat} {v : Nat × Nat}
    (h1 : p ≤ c.length) (h2 : openMatchAt c p = some v)
    (h3 : ∀ q, q < p → openMatchAt c q = none) :
    findChunkSearch c = some v := by
  unfold findChunkSearch
  rw [List.range_eq_range']
  exact range'_findSome?_intro (by omega) (by omega) h2
    (fun q _ hq => h3 q hq)

end Prevnext

namespace Prevnext

/-- The edited text has length `s + X.length`. -/
theorem edited_length {c X : List Char} {s : Nat} (hs : s ≤ c.length) :
    (c.take s ++ X).length = s + X.length := by
  simp [List.length_append, List.length_take]
  omega

/-- Character agreement below the edit position. -/
theorem edited_agree {c X : List Char} {s : Nat} (hs : s ≤ c.length) :
    ∀ i, i < s → getC (c.take s ++ X) i = getC c i := by
  intro i hi
  rw [getC_append_left X (by rw [List.length_take]; omega), getC_take c hi]

/-- The edited text beyond the edit position is the replacement. -/
theorem edited_drop {c X : List Char} {s : Nat} (hs : s ≤ c.length) :
    (c.take s ++ X).drop s = X := by
  have hlen : (c.take s).length = s := by rw [List.length_take]; omega
  calc (c.take s ++ X).drop s
      = (c.take s ++ X).drop (c.take s).length := by rw [hlen]
    _ = X := List.drop_left _ _

/-- A whitespace run whose stop lies below the edit position transfers to
the edited text. -/
theorem wsRun_transfer {c X : List Char} {s start : Nat}
    (hs : s ≤ c.length)
    (hstop : start + wsRun (c.drop start) < s) :
    wsRun ((c.take s ++ X).drop start) = wsRun (c.drop start) := by
  apply wsRun_iff.mpr
  constructor
  · intro i hi
    rw [getC_drop, edited_agree hs _ (by omega), ← getC_drop]
    exact wsRun_ws hi
  · rw [getC_drop, edited_agree hs _ hstop, ← getC_drop]
    exact wsRun_stop _

/-- A literal test that reads only below the edit position transfers to
the edited text. -/
theorem lit_transfer {c X : List Char} {s start : Nat}
    (hs : s ≤ c.length) (hstart : start + openTagL.length ≤ s) :
    (openTagL.isPrefixOf ((c.take s ++ X).drop start) = true ↔
      openTagL.isPrefixOf (c.drop start) = true) := by
  rw [isPrefixOf_iff_getC, isPrefixOf_iff_getC]
  have hl1 : ((c.take s ++ X).drop start).length = s + X.length - start := by
    rw [List.length_drop, edited_length hs]
  have hl2 : (c.drop start).length = c.length - start := List.length_drop _ _
  have hag : ∀ i, i < openTagL.length →
      getC ((c.take s ++ X).drop start) i = getC (c.drop start) i := by
    intro i hi
    rw [getC_drop, getC_drop]
    exact edited_agree hs (start + i) (by omega)
  constructor
  · intro ⟨hlen, hch⟩
    refine ⟨by omega, ?_⟩
    intro i hi
    rw [← hag i hi]
    exact hch i hi
  · intro ⟨hlen, hch⟩
    refine ⟨by omega, ?_⟩
    intro i hi
    rw [hag i hi]
    exact hch i hi

/-- A line-start test at or below the edit position transfers to the
edited text. -/
theorem isLineStart_transfer {c X : List Char} {s q : Nat}
    (hs : s ≤ c.length) (hq : q ≤ s) :
    isLineStart (c.take s ++ X) q = isLineStart c q := by
  unfold isLineStart
  cases q with
  | zero => rfl
  | succ n =>
    have : getC (c.take s ++ X) n = getC c n := edited_agree hs n (by omega)
    simp [this]

/-- A failed line-start test refutes `openMatchAt`. -/
theorem openMatchAt_none_of_ls {c2 : List Char} {q : Nat}
    (h : isLineStart c2 q = false) : openMatchAt c2 q = none := by
  unfold openMatchAt
  rw [h]
  simp

/-- A failed literal test refutes `openMatchAt`. -/
theorem openMatchAt_none_of_lit {c2 : List Char} {q : Nat}
    (hls : isLineStart c2 q = true)
    (hlit : openTagL.isPrefixOf (c2.drop (q + wsRun (c2.drop q))) = false) :
    openMatchAt c2 q = none := by
  unfold openMatchAt
  rw [hls, hlit]
  simp

/-- All candidates failing refutes `openMatchAt`. -/
theorem openMatchAt_none_of_cands {c2 : List Char} {q : Nat}
    (hls : isLineStart c2 q = true)
    (hlit : openTagL.isPrefixOf (c2.drop (q + wsRun (c2.drop q))) = true)
    (hall : ∀ i,
      i < wsRun (c2.drop (q + wsRun (c2.drop q) + openTagL.length)) →
      openCand c2 (q + wsRun (c2.drop q) + openTagL.length) i = none) :
    openMatchAt c2 q = none := by
  unfold openMatchAt
  rw [hls, hlit]
  simp only [if_true, eq_self_iff_true]
  apply List.findSome?_eq_none_iff.mpr
  intro i hmem
  rw [List.mem_reverse, List.mem_range] at hmem
  exact hall i hmem

/-- A succeeding candidate makes `openMatchAt` succeed. -/
theorem openMatchAt_ne_none {c2 : List Char} {q i : Nat} {v : Nat × Nat}
    (hls : isLineStart c2 q = true)
    (hlit : openTagL.isPrefixOf (c2.drop (q + wsRun (c2.drop q))) = true)
    (hi : i < wsRun (c2.drop (q + wsRun (c2.drop q) + openTagL.length)))
    (hcand : openCand c2 (q + wsRun (c2.drop q) + openTagL.length) i =
      some v) :
    openMatchAt c2 q ≠ none := by
  unfold openMatchAt
  rw [hls, hlit]
  simp only [if_true, eq_self_iff_true]
  intro hnone
  have := List.findSome?_eq_none_iff.mp hnone i
    (by rw [List.mem_reverse, List.mem_range]; exact hi)
  rw [hcand] at this
  exact absurd this (by simp)

/-- Every whole-match start position before the original one still fails
in the edited text: the original leftmost match is still leftmost. -/
theorem before_none {c X : List Char} {s e p L : Nat}
    (hL : getC c L = '<') (hpL : p ≤ L)
    (hLs : L + openTagL.length + 1 ≤ s) (hs1 : getC c (s - 1) = '\n')
    (hsle : s ≤ c.length) (hse : s ≤ e) (hele : e ≤ c.length)
    (hprede : (isLineStart c e && closesAt c e) = true)
    (hfc : findClose c s = some e)
    {q : Nat} (hq : q < p) (hold : openMatchAt c q = none) :
    openMatchAt (c.take s ++ X) q = none := by
  have hol : openTagL.length = 19 := by decide
  have hqs : q < s := by omega
  by_cases hls2 : isLineStart c q = true
  case neg =>
    exact openMatchAt_none_of_ls
      (by rw [isLineStart_transfer hsle (by omega)]; simpa using hls2)
  case pos =>
  have hlsX : isLineStart (c.take s ++ X) q = true := by
    rw [isLineStart_transfer hsle (by omega)]
    exact hls2
  -- the old whitespace run from q stops at or before the literal at L
  have hkstop : isPySpace (getC (c.drop q) (L - q)) = false := by
    rw [getC_drop, show q + (L - q) = L by omega, hL]
    decide
  have hkle : wsRun (c.drop q) ≤ L - q := wsRun_le_of_not_ws hkstop
  have hkq : wsRun ((c.take s ++ X).drop q) = wsRun (c.drop q) :=
    wsRun_transfer hsle (by omega)
  by_cases hlit2 :
      openTagL.isPrefixOf (c.drop (q + wsRun (c.drop q))) = true
  case neg =>
    apply openMatchAt_none_of_lit hlsX
    rw [hkq]
    cases hb : openTagL.isPrefixOf ((c.take s ++ X).drop
        (q + wsRun (c.drop q))) with
    | false => rfl
    | true => exact absurd ((lit_transfer hsle (by omega)).mp hb) hlit2
  case pos =>
  have hlitX : openTagL.isPrefixOf ((c.take s ++ X).drop
      (q + wsRun ((c.take s ++ X).drop q))) = true := by
    rw [hkq]
    exact (lit_transfer hsle (by omega)).mpr hlit2
  by_cases hrs :
      q + wsRun (c.drop q) + openTagL.length +
        wsRun (c.drop (q + wsRun (c.drop q) + openTagL.length)) < s
  case pos =>
    -- the run stops before the edit position: no candidate can be a
    -- newline, otherwise the old search would have succeeded at q
    have hnonl : ∀ i,
        i < wsRun (c.drop (q + wsRun (c.drop q) + openTagL.length)) →
        getC c (q + wsRun (c.drop q) + openTagL.length + i) ≠ '\n' := by
      intro i hi hnl2
      have hcand : openCand c
          (q + wsRun (c.drop q) + openTagL.length) i = none := by
        unfold openMatchAt at hold
        rw [hls2, hlit2] at hold
        simp only [if_true, eq_self_iff_true] at hold
        exact List.findSome?_eq_none_iff.mp hold i
          (by rw [List.mem_reverse, List.mem_range]; exact hi)
      unfold openCand at hcand
      rw [if_pos (by simpa using hnl2)] at hcand
      cases hfc2 : findClose c
          (q + wsRun (c.drop q) + openTagL.length + i + 1) with
      | some w => rw [hfc2] at hcand; exact absurd hcand (by simp)
      | none =>
        unfold findClose at hfc2
        have hmem : e ∈ List.range'
            (q + wsRun (c.drop q) + openTagL.length + i + 1)
            (c.length + 1 -
              (q + wsRun (c.drop q) + openTagL.length + i + 1)) := by
          rw [List.mem_range'_1]
          omega
        have := List.findSome?_eq_none_iff.mp hfc2 e hmem
        rw [if_pos hprede] at this
        exact absurd this (by simp)
    apply openMatchAt_none_of_cands hlsX hlitX
    have hrq : wsRun ((c.take s ++ X).drop
        (q + wsRun (c.drop q) + openTagL.length)) =
        wsRun (c.drop (q + wsRun (c.drop q) + openTagL.length)) :=
      wsRun_transfer hsle hrs
    rw [hkq, hrq]
    intro i hi
    unfold openCand
    rw [if_neg]
    have hagi : getC (c.take s ++ X)
        (q + wsRun (c.drop q) + openTagL.length + i) =
        getC c (q + wsRun (c.drop q) + openTagL.length + i) :=
      edited_agree hsle _ (by omega)
    rw [hagi]
    simpa using hnonl i hi
  case neg =>
    -- the run reaches the edit position: the old text would have
    -- matched at q because position s - 1 is a newline candidate
    exfalso
    have hq2q : q + wsRun (c.drop q) + openTagL.length ≤ s - 1 := by
      omega
    have hjlt : s - 1 - (q + wsRun (c.drop q) + openTagL.length) <
        wsRun (c.drop (q + wsRun (c.drop q) + openTagL.length)) := by
      omega
    have hcand : openCand c (q + wsRun (c.drop q) + openTagL.length)
        (s - 1 - (q + wsRun (c.drop q) + openTagL.length)) =
        some (s, e) := by
      unfold openCand
      rw [if_pos (by
        rw [show q + wsRun (c.drop q) + openTagL.length +
          (s - 1 - (q + wsRun (c.drop q) + openTagL.length)) = s - 1
          by omega]
        simpa using hs1)]
      rw [show q + wsRun (c.drop q) + openTagL.length +
        (s - 1 - (q + wsRun (c.drop q) + openTagL.length)) + 1 = s
        by omega]
      rw [hfc]
      rfl
    exact openMatchAt_ne_none hls2 hlit2 hjlt hcand hold

end Prevnext

namespace Prevnext

/-- A position of `g` is inert when the whitespace run from it stops
inside `g` and the following characters disagree with the closing literal
within `g` itself. -/
def inertAt (g : List Char) (o : Nat) : Bool :=
  decide (wsRun (g.drop o) + o < g.length) &&
  mismatchEarly closeTagL ((g.drop o).drop (wsRun (g.drop o)))

/-- A replacement chunk is inert when: every line start inside it fails
the closing pattern with a mismatch inside the chunk; its leading
whitespace run contains no newline; and, when nonempty, it ends with a
newline.  The generated prev/next buttons are inert. -/
def Inert (g : List Char) : Prop :=
  (∀ o, o < g.length → (o = 0 ∨ getC g (o - 1) = '\n') →
    inertAt g o = true) ∧
  (∀ u, u < wsRun g → getC g u ≠ '\n') ∧
  (g ≠ [] → getC g (g.length - 1) = '\n')

/-- A position preceded by a newline starts a line. -/
theorem isLineStart_of_nl {c2 : List Char} {q : Nat}
    (h : getC c2 (q - 1) = '\n') : isLineStart c2 q = true := by
  unfold isLineStart
  simp [h]

/-- What a true line-start test means. -/
theorem isLineStart_elim {c2 : List Char} {q : Nat}
    (h : isLineStart c2 q = true) : q = 0 ∨ getC c2 (q - 1) = '\n' := by
  unfold isLineStart at h
  rcases Bool.or_eq_true_iff.mp h with h1 | h2
  · exact Or.inl (by simpa using h1)
  · exact Or.inr (by simpa using h2)

/-- After replacing the matched chunk by an inert nonempty chunk `g`, the
marker search finds exactly the chunk `g` again, in the same place: the
span of group 1 is `[s, s + g.length)`. -/
theorem research_nonempty {c g : List Char} {s e : Nat}
    (hs : findChunkSearch c = some (s, e))
    (hInert : Inert g) (hgne : g ≠ []) :
    findChunkSearch (c.take s ++ (g ++ c.drop e)) =
      some (s, s + g.length) := by
  obtain ⟨p, hpLen, hopen, hbef⟩ := search_elim hs
  obtain ⟨hls, hlit, j, hjr, hnl, hsdef, hfc, habove⟩ := openMatchAt_elim hopen
  obtain ⟨hse, hele, hprede, hbetween⟩ := findClose_elim hfc
  have hol : openTagL.length = 19 := by decide
  have hq2j : p + wsRun (c.drop p) + openTagL.length + j < c.length :=
    lt_length_of_getC_nl hnl
  have hsle : s ≤ c.length := by omega
  have hs1 : getC c (s - 1) = '\n' := by
    rw [hsdef, Nat.add_sub_cancel]
    exact hnl
  have hLs : p + wsRun (c.drop p) + openTagL.length + 1 ≤ s := by omega
  have hL : getC c (p + wsRun (c.drop p)) = '<' := by
    have := (isPrefixOf_iff_getC.mp hlit).2 0 (by rw [hol]; omega)
    rw [getC_drop] at this
    simpa using this
  have hglen : 0 < g.length := List.length_pos.mpr hgne
  have hg0 := hInert.1 0 hglen (Or.inl rfl)
  rw [inertAt, Bool.and_eq_true, decide_eq_true_iff] at hg0
  rw [List.drop_zero] at hg0
  obtain ⟨hwsg, hmm0⟩ := hg0
  rw [Nat.add_zero] at hwsg
  have hB : c.length - e = (c.drop e).length := (List.length_drop _ _).symm
  -- abbreviations: the replacement suffix and the edited text
  have hXws : wsRun (g ++ c.drop e) = wsRun g :=
    wsRun_append_left (by omega)
  have hlenX : (c.take s ++ (g ++ c.drop e)).length =
      s + (g.length + (c.length - e)) := by
    rw [edited_length hsle, List.length_append, List.length_drop]
  -- line start, whitespace run and literal transfer to the edited text
  have hlsX : isLineStart (c.take s ++ (g ++ c.drop e)) p = true := by
    rw [isLineStart_transfer hsle (by omega)]
    exact hls
  have hkX : wsRun ((c.take s ++ (g ++ c.drop e)).drop p) =
      wsRun (c.drop p) :=
    wsRun_transfer hsle (by omega)
  have hlitX : openTagL.isPrefixOf ((c.take s ++ (g ++ c.drop e)).drop
      (p + wsRun ((c.take s ++ (g ++ c.drop e)).drop p))) = true := by
    rw [hkX]
    exact (lit_transfer hsle (by omega)).mpr hlit
  -- the new candidate run: the old whitespace up to the newline at s - 1,
  -- then the leading whitespace of g
  have hdropS : (c.take s ++ (g ++ c.drop e)).drop s = g ++ c.drop e :=
    edited_drop hsle
  have hrX : wsRun ((c.take s ++ (g ++ c.drop e)).drop
      (p + wsRun (c.drop p) + openTagL.length)) = j + 1 + wsRun g := by
    have hpre : ∀ i, i < j + 1 → isPySpace (getC
        ((c.take s ++ (g ++ c.drop e)).drop
          (p + wsRun (c.drop p) + openTagL.length)) i) = true := by
      intro i hi
      rw [getC_drop, edited_agree hsle _ (by omega), ← getC_drop]
      exact wsRun_ws (by omega)
    rw [wsRun_add hpre]
    rw [List.drop_drop]
    rw [show p + wsRun (c.drop p) + openTagL.length + (j + 1) = s by omega]
    rw [hdropS, hXws]
  -- every position of the replacement interval fails the closing pattern
  have hinterval : ∀ q2, s ≤ q2 → q2 < s + g.length →
      (isLineStart (c.take s ++ (g ++ c.drop e)) q2 &&
        closesAt (c.take s ++ (g ++ c.drop e)) q2) = false := by
    intro q2 hq21 hq22
    by_cases hlsq : isLineStart (c.take s ++ (g ++ c.drop e)) q2 = true
    · have hoor : q2 - s = 0 ∨ getC g (q2 - s - 1) = '\n' := by
        rcases isLineStart_elim hlsq with h0 | hnl2
        · omega
        · by_cases hq2s : q2 = s
          · exact Or.inl (by omega)
          · refine Or.inr ?_
            rw [show q2 - 1 = s + (q2 - s - 1) by omega] at hnl2
            rw [← getC_drop, hdropS] at hnl2
            rw [← hnl2]
            exact (getC_append_left (c.drop e) (by omega)).symm
      have hia := hInert.1 (q2 - s) (by omega) hoor
      rw [inertAt, Bool.and_eq_true, decide_eq_true_iff] at hia
      obtain ⟨hia1, hia2⟩ := hia
      have hcl : closesAt (c.take s ++ (g ++ c.drop e)) q2 = false := by
        unfold closesAt
        have hdropq2 : (c.take s ++ (g ++ c.drop e)).drop q2 =
            g.drop (q2 - s) ++ c.drop e := by
          rw [show q2 = s + (q2 - s) by omega, ← List.drop_drop, hdropS,
            List.drop_append_of_le_length (by omega),
            Nat.add_sub_cancel_left]
        rw [hdropq2]
        rw [wsRun_append_left (by rw [List.length_drop]; omega)]
        rw [List.drop_append_of_le_length (by rw [List.length_drop]; omega)]
        exact mismatchEarly_not_isPrefixOf hia2 _
      rw [hcl]
      simp
    · rw [Bool.not_eq_true] at hlsq
      rw [hlsq]
      simp
  -- the closing pattern holds right after the replacement
  have hclose : findClose (c.take s ++ (g ++ c.drop e)) s =
      some (s + g.length) := by
    apply findClose_intro (by omega) (by omega) _ hinterval
    have hlsend : isLineStart (c.take s ++ (g ++ c.drop e))
        (s + g.length) = true := by
      apply isLineStart_of_nl
      rw [show s + g.length - 1 = s + (g.length - 1) by omega]
      rw [← getC_drop, hdropS, getC_append_left (c.drop e) (by omega)]
      exact hInert.2.2 hgne
    have hclend : closesAt (c.take s ++ (g ++ c.drop e))
        (s + g.length) = true := by
      unfold closesAt
      have : (c.take s ++ (g ++ c.drop e)).drop (s + g.length) =
          c.drop e := by
        rw [← List.drop_drop, hdropS, List.drop_left]
      rw [this]
      have hp2 := hprede
      rw [Bool.and_eq_true] at hp2
      exact hp2.2
    rw [hlsend, hclend]
    rfl
  -- the winning candidate in the edited text is still the newline at s - 1
  have hcandX : openCand (c.take s ++ (g ++ c.drop e))
      (p + wsRun (c.drop p) + openTagL.length) j =
      some (s, s + g.length) := by
    unfold openCand
    rw [if_pos (by
      rw [edited_agree hsle _ (by omega)]
      rw [show p + wsRun (c.drop p) + openTagL.length + j = s - 1 by omega]
      simpa using hs1)]
    rw [show p + wsRun (c.drop p) + openTagL.length + j + 1 = s by omega]
    rw [hclose]
    rfl
  have habX : ∀ i, j < i → i < j + 1 + wsRun g →
      openCand (c.take s ++ (g ++ c.drop e))
        (p + wsRun (c.drop p) + openTagL.length) i = none := by
    intro i hi1 hi2
    unfold openCand
    rw [if_neg]
    rw [show p + wsRun (c.drop p) + openTagL.length + i =
      s + (i - (j + 1)) by omega]
    rw [← getC_drop, hdropS, getC_append_left (c.drop e) (by omega)]
    simpa using hInert.2.1 (i - (j + 1)) (by omega)
  -- assemble the match at p in the edited text
  have hopenX : openMatchAt (c.take s ++ (g ++ c.drop e)) p =
      some (s, s + g.length) := by
    have := @openMatchAt_intro (c.take s ++ (g ++ c.drop e)) p j
      (s + g.length) hlsX hlitX
      (by rw [hkX, hrX]; omega)
      (by rw [hkX]
          rw [edited_agree hsle _ (by omega)]
          rw [show p + wsRun (c.drop p) + openTagL.length + j = s - 1
            by omega]
          exact hs1)
      (by rw [hkX]
          rw [show p + wsRun (c.drop p) + openTagL.length + j + 1 = s
            by omega]
          exact hclose)
      (by rw [hkX, hrX]
          exact habX)
    rw [hkX] at this
    rw [show p + wsRun (c.drop p) + openTagL.length + j + 1 = s by omega]
      at this
    exact this
  -- and no earlier position matches
  exact search_intro (by rw [hlenX]; omega) hopenX
    (fun q hq => before_none hL (by omega) hLs hs1 hsle hse hele hprede hfc
      hq (hbef q hq))

end Prevnext

namespace Prevnext

/-- A whitespace run never exceeds the length. -/
theorem wsRun_le_length (xs : List Char) : wsRun xs ≤ xs.length := by
  by_contra h
  have := @wsRun_ws xs xs.length (by omega)
  rw [getC_default (le_refl _)] at this
  exact absurd this (by decide)

/-- After deleting the matched chunk (an empty replacement), the marker
search still finds an empty group: the text is a fixed point of the
edit. -/
theorem research_empty {c : List Char} {s e : Nat}
    (hs : findChunkSearch c = some (s, e)) :
    ∃ x, findChunkSearch (c.take s ++ c.drop e) = some (x, x) := by
  obtain ⟨p, hpLen, hopen, hbef⟩ := search_elim hs
  obtain ⟨hls, hlit, j, hjr, hnl, hsdef, hfc, habove⟩ := openMatchAt_elim hopen
  obtain ⟨hse, hele, hprede, hbetween⟩ := findClose_elim hfc
  have hol : openTagL.length = 19 := by decide
  have hq2j : p + wsRun (c.drop p) + openTagL.length + j < c.length :=
    lt_length_of_getC_nl hnl
  have hsle : s ≤ c.length := by omega
  have hs1 : getC c (s - 1) = '\n' := by
    rw [hsdef, Nat.add_sub_cancel]
    exact hnl
  have hLs : p + wsRun (c.drop p) + openTagL.length + 1 ≤ s := by omega
  have hL : getC c (p + wsRun (c.drop p)) = '<' := by
    have := (isPrefixOf_iff_getC.mp hlit).2 0 (by rw [hol]; omega)
    rw [getC_drop] at this
    simpa using this
  have hprede2 := hprede
  rw [Bool.and_eq_true] at hprede2
  have hwB : wsRun (c.drop e) ≤ (c.drop e).length := wsRun_le_length _
  have hlenX : (c.take s ++ c.drop e).length = s + (c.length - e) := by
    rw [edited_length hsle, List.length_drop]
  have hlsX : isLineStart (c.take s ++ c.drop e) p = true := by
    rw [isLineStart_transfer hsle (by omega)]
    exact hls
  have hkX : wsRun ((c.take s ++ c.drop e).drop p) = wsRun (c.drop p) :=
    wsRun_transfer hsle (by omega)
  have hlitX : openTagL.isPrefixOf ((c.take s ++ c.drop e).drop
      (p + wsRun ((c.take s ++ c.drop e).drop p))) = true := by
    rw [hkX]
    exact (lit_transfer hsle (by omega)).mpr hlit
  have hdropS : (c.take s ++ c.drop e).drop s = c.drop e :=
    edited_drop hsle
  have hrX : wsRun ((c.take s ++ c.drop e).drop
      (p + wsRun (c.drop p) + openTagL.length)) =
      j + 1 + wsRun (c.drop e) := by
    have hpre : ∀ i, i < j + 1 → isPySpace (getC
        ((c.take s ++ c.drop e).drop
          (p + wsRun (c.drop p) + openTagL.length)) i) = true := by
      intro i hi
      rw [getC_drop, edited_agree hsle _ (by omega), ← getC_drop]
      exact wsRun_ws (by omega)
    rw [wsRun_add hpre]
    rw [List.drop_drop]
    rw [show p + wsRun (c.drop p) + openTagL.length + (j + 1) = s by omega]
    rw [hdropS]
  -- scan the leading whitespace of the suffix for its last newline
  cases hu : ((List.range (wsRun (c.drop e))).reverse).findSome?
      (fun u => if getC (c.drop e) u == '\n' then some u else none) with
  | none =>
    -- no newline in the suffix whitespace: the winning candidate is the
    -- newline at s - 1 and the group is empty at s
    have hnonl : ∀ u, u < wsRun (c.drop e) → getC (c.drop e) u ≠ '\n' := by
      intro u hult hnl2
      have := List.findSome?_eq_none_iff.mp hu u
        (by rw [List.mem_reverse, List.mem_range]; exact hult)
      rw [if_pos (by simpa using hnl2)] at this
      exact absurd this (by simp)
    have hclose : findClose (c.take s ++ c.drop e) s = some s := by
      apply findClose_intro (le_refl _) (by omega) _ (by omega)
      have hlss : isLineStart (c.take s ++ c.drop e) s = true := by
        apply isLineStart_of_nl
        rw [edited_agree hsle _ (by omega)]
        exact hs1
      have hcls : closesAt (c.take s ++ c.drop e) s = true := by
        unfold closesAt
        rw [hdropS]
        exact hprede2.2
      rw [hlss, hcls]
      rfl
    have hopenX : openMatchAt (c.take s ++ c.drop e) p = some (s, s) := by
      have := @openMatchAt_intro (c.take s ++ c.drop e) p j s hlsX hlitX
        (by rw [hkX, hrX]; omega)
        (by rw [hkX]
            rw [edited_agree hsle _ (by omega)]
            rw [show p + wsRun (c.drop p) + openTagL.length + j = s - 1
              by omega]
            exact hs1)
        (by rw [hkX]
            rw [show p + wsRun (c.drop p) + openTagL.length + j + 1 = s
              by omega]
            exact hclose)
        (by rw [hkX, hrX]
            intro i hi1 hi2
            unfold openCand
            rw [if_neg]
            rw [show p + wsRun (c.drop p) + openTagL.length + i =
              s + (i - (j + 1)) by omega]
            rw [← getC_drop, hdropS]
            simpa using hnonl (i - (j + 1)) (by omega))
      rw [hkX] at this
      rw [show p + wsRun (c.drop p) + openTagL.length + j + 1 = s by omega]
        at this
      exact this
    refine ⟨s, search_intro (by rw [hlenX]; omega) hopenX ?_⟩
    intro q hq
    exact before_none hL (by omega) hLs hs1 hsle hse hele hprede hfc hq
      (hbef q hq)
  | some u =>
    -- the winning candidate is the last newline of the suffix
    -- whitespace; the group is empty right after it
    obtain ⟨u0, hu0lt, hu0some, hu0above⟩ := revRange_findSome?_elim hu
    have hdl : (c.drop e).length = c.length - e := List.length_drop _ _
    have huequ : u0 = u ∧ getC (c.drop e) u0 = '\n' := by
      by_cases hbe : (getC (c.drop e) u0 == '\n') = true
      · rw [if_pos hbe] at hu0some
        exact ⟨by injection hu0some, by simpa using hbe⟩
      · rw [if_neg hbe] at hu0some
        exact absurd hu0some (by simp)
    obtain ⟨hueq, hunl0⟩ := huequ
    subst hueq
    have hunl2 : getC (c.drop e) u0 = '\n' := hunl0
    have hult : u0 < wsRun (c.drop e) := hu0lt
    have huab : ∀ w, u0 < w → w < wsRun (c.drop e) →
        getC (c.drop e) w ≠ '\n' := by
      intro w hw1 hw2 hnl2
      have := hu0above w hw1 hw2
      rw [if_pos (by simpa using hnl2)] at this
      exact absurd this (by simp)
    have hagU : getC (c.take s ++ c.drop e) (s + u0) =
        getC (c.drop e) u0 := by
      rw [← getC_drop, hdropS]
    have hclose : findClose (c.take s ++ c.drop e) (s + u0 + 1) =
        some (s + u0 + 1) := by
      apply findClose_intro (le_refl _) (by omega) _ (by omega)
      have hlss : isLineStart (c.take s ++ c.drop e) (s + u0 + 1) =
          true := by
        apply isLineStart_of_nl
        rw [show s + u0 + 1 - 1 = s + u0 by omega, hagU]
        exact hunl2
      have hcls : closesAt (c.take s ++ c.drop e) (s + u0 + 1) = true := by
        unfold closesAt
        have hd1 : (c.take s ++ c.drop e).drop (s + u0 + 1) =
            (c.drop e).drop (u0 + 1) := by
          rw [show s + u0 + 1 = s + (u0 + 1) by omega, ← List.drop_drop,
            hdropS]
        rw [hd1]
        rw [wsRun_drop (by omega)]
        rw [List.drop_drop]
        rw [show u0 + 1 + (wsRun (c.drop e) - (u0 + 1)) =
          wsRun (c.drop e) by omega]
        exact hprede2.2
      rw [hlss, hcls]
      rfl
    have hopenX : openMatchAt (c.take s ++ c.drop e) p =
        some (s + u0 + 1, s + u0 + 1) := by
      have := @openMatchAt_intro (c.take s ++ c.drop e) p (j + 1 + u0)
        (s + u0 + 1) hlsX hlitX
        (by rw [hkX, hrX]; omega)
        (by rw [hkX]
            rw [show p + wsRun (c.drop p) + openTagL.length +
              (j + 1 + u0) = s + u0 by omega, hagU]
            exact hunl2)
        (by rw [hkX]
            rw [show p + wsRun (c.drop p) + openTagL.length +
              (j + 1 + u0) + 1 = s + u0 + 1 by omega]
            exact hclose)
        (by rw [hkX, hrX]
            intro i hi1 hi2
            unfold openCand
            rw [if_neg]
            rw [show p + wsRun (c.drop p) + openTagL.length + i =
              s + (i - (j + 1)) by omega]
            rw [← getC_drop, hdropS]
            simpa using huab (i - (j + 1)) (by omega) (by omega))
      rw [hkX] at this
      rw [show p + wsRun (c.drop p) + openTagL.length + (j + 1 + u0) + 1 =
        s + u0 + 1 by omega] at this
      exact this
    refine ⟨s + u0 + 1, search_intro (by rw [hlenX]; omega) hopenX ?_⟩
    intro q hq
    exact before_none hL (by omega) hLs hs1 hsle hse hele hprede hfc hq
      (hbef q hq)

end Prevnext

namespace Prevnext

/-- The body of a generated anchor line: four spaces of indentation, then
an `<a` tag, and no newline anywhere. -/
def goodBody (b : List Char) : Prop :=
  '\n' ∉ b ∧ wsRun b = 4 ∧ ∃ rest, b.drop 4 = '<' :: 'a' :: rest

/-- The closing literal mismatches an `<a` tag within two characters. -/
theorem mismatch_anchor (xs : List Char) :
    mismatchEarly closeTagL ('<' :: 'a' :: xs) = true := by
  show mismatchEarly ('<' :: '/' :: 'd' :: 'i' :: 'v' :: '>' :: [])
    ('<' :: 'a' :: xs) = true
  simp [mismatchEarly]

/-- A good body is at least six characters long. -/
theorem goodBody_length {b : List Char} (hb : goodBody b) : 6 ≤ b.length := by
  obtain ⟨-, -, rest, hdrop⟩ := hb
  have := congrArg List.length hdrop
  rw [List.length_drop] at this
  simp at this
  omega

/-- An anchor line (a good body plus the final newline) is inert. -/
theorem inert_one {b : List Char} (hb : goodBody b) : Inert (b ++ ['\n']) := by
  obtain ⟨hmem, hws, rest, hdrop⟩ := hb
  have hlen := goodBody_length ⟨hmem, hws, rest, hdrop⟩
  have hL : (b ++ ['\n']).length = b.length + 1 := by simp
  have hnlpos : ∀ i, i < b.length → getC (b ++ ['\n']) i ≠ '\n' := by
    intro i hi hnl
    rw [getC_append_left _ hi] at hnl
    exact hmem (hnl ▸ getC_mem hi)
  have hwsL : wsRun (b ++ ['\n']) = 4 := by
    rw [wsRun_append_left (by omega)]
    exact hws
  have hdropL : (b ++ ['\n']).drop 4 = '<' :: 'a' :: (rest ++ ['\n']) := by
    rw [List.drop_append_of_le_length (by omega), hdrop]
    rfl
  refine ⟨?_, ?_, ?_⟩
  · intro o ho hor
    have ho0 : o = 0 := by
      rcases hor with h0 | hnl
      · exact h0
      · by_contra hne
        have hob : o - 1 < b.length := by omega
        exact hnlpos (o - 1) hob hnl
    subst ho0
    rw [inertAt, List.drop_zero, hwsL]
    rw [Bool.and_eq_true, decide_eq_true_iff]
    refine ⟨by omega, ?_⟩
    rw [hdropL]
    exact mismatch_anchor _
  · intro u hu
    rw [hwsL] at hu
    exact hnlpos u (by omega)
  · intro _
    rw [hL, Nat.add_sub_cancel, getC_append_right _ (le_refl _)]
    simp [getC]

/-- Two anchor lines in sequence are inert. -/
theorem inert_two {b1 b2 : List Char} (h1 : goodBody b1)
    (h2 : goodBody b2) : Inert (b1 ++ '\n' :: (b2 ++ ['\n'])) := by
  obtain ⟨hmem1, hws1, rest1, hdrop1⟩ := h1
  obtain ⟨hmem2, hws2, rest2, hdrop2⟩ := h2
  have hlen1 := goodBody_length ⟨hmem1, hws1, rest1, hdrop1⟩
  have hlen2 := goodBody_length ⟨hmem2, hws2, rest2, hdrop2⟩
  have hL : (b1 ++ '\n' :: (b2 ++ ['\n'])).length =
      b1.length + b2.length + 2 := by simp; omega
  have hg1 : ∀ i, i < b1.length →
      getC (b1 ++ '\n' :: (b2 ++ ['\n'])) i = getC b1 i := by
    intro i hi
    exact getC_append_left _ hi
  have hgmid : getC (b1 ++ '\n' :: (b2 ++ ['\n'])) b1.length = '\n' := by
    rw [getC_append_right _ (le_refl _)]
    simp [getC]
  have hdrops : (b1 ++ '\n' :: (b2 ++ ['\n'])).drop (b1.length + 1) =
      b2 ++ ['\n'] := by
    rw [show b1 ++ '\n' :: (b2 ++ ['\n']) =
      (b1 ++ ['\n']) ++ (b2 ++ ['\n']) by simp]
    rw [show b1.length + 1 = (b1 ++ ['\n']).length by simp]
    exact List.drop_left _ _
  have hg2 : ∀ i, i < b2.length →
      getC (b1 ++ '\n' :: (b2 ++ ['\n'])) (b1.length + 1 + i) =
        getC b2 i := by
    intro i hi
    rw [← getC_drop, hdrops, getC_append_left _ hi]
  have hnlpos : ∀ i, i < b1.length + b2.length + 1 → i ≠ b1.length →
      getC (b1 ++ '\n' :: (b2 ++ ['\n'])) i ≠ '\n' := by
    intro i hi hne hnl
    by_cases hib : i < b1.length
    · rw [hg1 i hib] at hnl
      exact hmem1 (hnl ▸ getC_mem hib)
    · have hi2 : i - (b1.length + 1) < b2.length := by omega
      rw [show i = b1.length + 1 + (i - (b1.length + 1)) by omega,
        hg2 _ hi2] at hnl
      exact hmem2 (hnl ▸ getC_mem hi2)
  refine ⟨?_, ?_, ?_⟩
  · intro o ho hor
    have ho0 : o = 0 ∨ o = b1.length + 1 := by
      rcases hor with h0 | hnl
      · exact Or.inl h0
      · by_cases ho1 : o - 1 = b1.length
        · right; omega
        · left
          by_contra hne
          exact hnlpos (o - 1) (by rw [hL] at ho; omega) ho1 hnl
    rcases ho0 with h0 | hmid
    · subst h0
      rw [inertAt, List.drop_zero]
      have hwsL : wsRun (b1 ++ '\n' :: (b2 ++ ['\n'])) = 4 := by
        rw [show b1 ++ '\n' :: (b2 ++ ['\n']) =
          b1 ++ ('\n' :: (b2 ++ ['\n'])) from rfl]
        rw [wsRun_append_left (by omega)]
        exact hws1
      rw [hwsL, Bool.and_eq_true, decide_eq_true_iff]
      refine ⟨by rw [hL]; omega, ?_⟩
      rw [show b1 ++ '\n' :: (b2 ++ ['\n']) =
        (b1 ++ ('\n' :: (b2 ++ ['\n']))) from rfl]
      rw [List.drop_append_of_le_length (by omega), hdrop1]
      rw [show ('<' :: 'a' :: rest1) ++ ('\n' :: (b2 ++ ['\n'])) =
        '<' :: 'a' :: (rest1 ++ '\n' :: (b2 ++ ['\n'])) from rfl]
      exact mismatch_anchor _
    · subst hmid
      rw [inertAt, Bool.and_eq_true, decide_eq_true_iff]
      have hwsd : wsRun ((b1 ++ '\n' :: (b2 ++ ['\n'])).drop
          (b1.length + 1)) = 4 := by
        rw [hdrops, wsRun_append_left (by omega)]
        exact hws2
      rw [hwsd]
      refine ⟨by rw [hL]; omega, ?_⟩
      rw [hdrops, List.drop_append_of_le_length (by omega), hdrop2]
      rw [show ('<' :: 'a' :: rest2) ++ ['\n'] =
        '<' :: 'a' :: (rest2 ++ ['\n']) from rfl]
      exact mismatch_anchor _
  · intro u hu
    have hwsL : wsRun (b1 ++ '\n' :: (b2 ++ ['\n'])) = 4 := by
      rw [show b1 ++ '\n' :: (b2 ++ ['\n']) =
        b1 ++ ('\n' :: (b2 ++ ['\n'])) from rfl]
      rw [wsRun_append_left (by omega)]
      exact hws1
    rw [hwsL] at hu
    exact hnlpos u (by omega) (by omega)
  · intro _
    rw [hL]
    rw [show b1.length + b2.length + 2 - 1 =
      b1.length + 1 + b2.length by omega]
    rw [← getC_drop, hdrops, getC_append_right _ (le_refl _)]
    simp [getC]

end Prevnext

namespace Prevnext

/-- An anchor body (indentation, `<a`, then newline-free text) is good. -/
theorem goodBody_anchor (X : List Char) (hX : '\n' ∉ X) :
    goodBody ("    <a href=\"".toList ++ X) := by
  have hA : ("    <a href=\"".toList).length = 13 := by decide
  refine ⟨?_, ?_, ?_⟩
  · intro hmem
    rcases List.mem_append.mp hmem with h | h
    · exact absurd h (by decide)
    · exact hX h
  · apply wsRun_iff.mpr
    constructor
    · intro i hi
      rw [getC_append_left X (by omega)]
      have : i = 0 ∨ i = 1 ∨ i = 2 ∨ i = 3 := by omega
      rcases this with rfl | rfl | rfl | rfl <;> decide
    · rw [getC_append_left X (by omega)]
      decide
  · refine ⟨" href=\"".toList ++ X, ?_⟩
    rw [List.drop_append_of_le_length (by omega)]
    rfl

/-- Entries read from the topic list contain no newline; neither does the
out-of-range default. -/
theorem getD_nl_free {fl : List (List Char)}
    (hfl : ∀ n ∈ fl, '\n' ∉ n) (idx : Nat) : '\n' ∉ fl.getD idx [] := by
  by_cases h : idx < fl.length
  · rw [List.getD_eq_getElem?_getD, List.getElem?_eq_getElem h]
    exact hfl _ (List.getElem_mem h)
  · rw [List.getD_eq_default _ _ (by omega)]
    simp

/-- The generated previous/next buttons are inert whenever the file names
contain no newline (they are lines of the topic list). -/
theorem generatePrevNext_inert (fl : List (List Char)) (i : Nat)
    (hfl : ∀ n ∈ fl, '\n' ∉ n) (hne : generatePrevNext fl i ≠ []) :
    Inert (generatePrevNext fl i) := by
  have hT1 : ("\" class=\"btn-previous\">&laquo; Previous</a>\n").toList =
      ("\" class=\"btn-previous\">&laquo; Previous</a>").toList ++ ['\n'] := by
    decide
  have hT2 : ("\" class=\"btn-next\">Next &raquo;</a>\n").toList =
      ("\" class=\"btn-next\">Next &raquo;</a>").toList ++ ['\n'] := by
    decide
  have h1 : "    <a href=\"".toList ++ fl.getD (i - 1) [] ++
      ("\" class=\"btn-previous\">&laquo; Previous</a>\n").toList =
      ("    <a href=\"".toList ++ (fl.getD (i - 1) [] ++
        ("\" class=\"btn-previous\">&laquo; Previous</a>").toList)) ++
        ['\n'] := by
    rw [hT1]
    simp [List.append_assoc]
  have h2 : "    <a href=\"".toList ++ fl.getD (i + 1) [] ++
      ("\" class=\"btn-next\">Next &raquo;</a>\n").toList =
      ("    <a href=\"".toList ++ (fl.getD (i + 1) [] ++
        ("\" class=\"btn-next\">Next &raquo;</a>").toList)) ++ ['\n'] := by
    rw [hT2]
    simp [List.append_assoc]
  have hgood1 : goodBody ("    <a href=\"".toList ++ (fl.getD (i - 1) [] ++
      ("\" class=\"btn-previous\">&laquo; Previous</a>").toList)) := by
    apply goodBody_anchor
    intro hmem
    rcases List.mem_append.mp hmem with h | h
    · exact getD_nl_free hfl (i - 1) h
    · exact absurd h (by decide)
  have hgood2 : goodBody ("    <a href=\"".toList ++ (fl.getD (i + 1) [] ++
      ("\" class=\"btn-next\">Next &raquo;</a>").toList)) := by
    apply goodBody_anchor
    intro hmem
    rcases List.mem_append.mp hmem with h | h
    · exact getD_nl_free hfl (i + 1) h
    · exact absurd h (by decide)
  by_cases hp : 0 < i
  · by_cases hn : i + 1 < fl.length
    · unfold generatePrevNext
      rw [if_pos hp, if_pos hn, h1, h2]
      rw [show ∀ b1 b2 : List Char, (b1 ++ ['\n']) ++ (b2 ++ ['\n']) =
        b1 ++ '\n' :: (b2 ++ ['\n']) from fun b1 b2 => by simp]
      exact inert_two hgood1 hgood2
    · unfold generatePrevNext
      rw [if_pos hp, if_neg hn, List.append_nil, h1]
      exact inert_one hgood1
  · by_cases hn : i + 1 < fl.length
    · unfold generatePrevNext
      rw [if_neg hp, if_pos hn, List.nil_append, h2]
      exact inert_one hgood2
    · exfalso
      apply hne
      unfold generatePrevNext
      rw [if_neg hp, if_neg hn]
      rfl

/-- The group start of a successful search is in range. -/
theorem search_s_le {c : List Char} {s e : Nat}
    (h : findChunkSearch c = some (s, e)) : s ≤ c.length := by
  obtain ⟨p, -, hopen, -⟩ := search_elim h
  obtain ⟨-, -, j, -, hnl, hsdef, -, -⟩ := openMatchAt_elim hopen
  have := lt_length_of_getC_nl hnl
  omega

/-- Unfolding `editFileContent` on a failed search. -/
theorem editFileContent_none {fl : List (List Char)} {i : Nat}
    {c : List Char} (h : findChunkSearch c = none) :
    editFileContent fl i c = [] := by
  unfold editFileContent
  rw [h]

/-- Unfolding `editFileContent` on a successful search. -/
theorem editFileContent_some {fl : List (List Char)} {i : Nat}
    {c : List Char} {s e : Nat} (h : findChunkSearch c = some (s, e)) :
    editFileContent fl i c =
      c.take s ++ (generatePrevNext fl i ++ c.drop e) := by
  unfold editFileContent
  rw [h]
  simp [List.append_assoc]

/-- Stitching is idempotent: editing an already-edited text changes
nothing.  The file names are lines of the topic list, hence contain no
newline. -/
theorem editFileContent_idem (fl : List (List Char)) (i : Nat)
    (c : List Char) (hfl : ∀ n ∈ fl, '\n' ∉ n) :
    editFileContent fl i (editFileContent fl i c) =
      editFileContent fl i c := by
  cases hsearch : findChunkSearch c with
  | none =>
    rw [editFileContent_none hsearch]
    exact editFileContent_none (by decide)
  | some se =>
    obtain ⟨s, e⟩ := se
    have hsle := search_s_le hsearch
    by_cases hg : generatePrevNext fl i = []
    · obtain ⟨x, hx⟩ := research_empty hsearch
      have h2 : editFileContent fl i c = c.take s ++ c.drop e := by
        rw [editFileContent_some hsearch, hg]
        simp
      rw [h2, editFileContent_some hx, hg]
      simp [List.take_append_drop]
    · have hx := research_nonempty hsearch
        (generatePrevNext_inert fl i hfl hg) hg
      rw [editFileContent_some hsearch, editFileContent_some hx]
      have ht : (c.take s ++ (generatePrevNext fl i ++ c.drop e)).take s =
          c.take s := by
        rw [List.take_append_of_le_length (by rw [List.length_take]; omega)]
        rw [List.take_take]
        simp
      have hd : (c.take s ++ (generatePrevNext fl i ++ c.drop e)).drop
          (s + (generatePrevNext fl i).length) = c.drop e := by
        rw [show c.take s ++ (generatePrevNext fl i ++ c.drop e) =
          (c.take s ++ generatePrevNext fl i) ++ c.drop e by simp]
        rw [show s + (generatePrevNext fl i).length =
          (c.take s ++ generatePrevNext fl i).length by
            simp [List.length_take]
            omega]
        exact List.drop_left _ _
      rw [ht, hd]

/-- Claim C5 (confirmed): a stitched file is rewritten on disk only if
its post-stitch content differs from its pre-stitch content, and
stitching is idempotent: for every file content, stitching the result of
stitching yields the same content again, so a second run over the same
ordered list (whose entries, read as lines, contain no newline) modifies
zero files. -/
theorem c5 :
    (∀ (fileList : List (List Char)) (index : Nat) (fileData : List Char),
      (stitchFile fileList index fileData).2 = true →
      (stitchFile fileList index fileData).1 ≠ fileData) ∧
    (∀ (fileList : List (List Char)) (index : Nat) (fileData : List Char),
      (∀ name ∈ fileList, '\n' ∉ name) →
      editFileContent fileList index
          (editFileContent fileList index fileData) =
        editFileContent fileList index fileData ∧
      (stitchFile fileList index
        ((stitchFile fileList index fileData).1)).2 = false) := by
  constructor
  · intro fl i d h
    unfold stitchFile at h ⊢
    by_cases he : editFileContent fl i d = d
    · rw [if_pos he] at h
      exact absurd h (by simp)
    · rw [if_neg he]
      exact he
  · intro fl i d hfl
    have hidem := editFileContent_idem fl i d hfl
    refine ⟨hidem, ?_⟩
    unfold stitchFile
    by_cases he : editFileContent fl i d = d
    · rw [if_pos he]
      rw [if_pos he]
    · rw [if_neg he]
      rw [if_pos hidem]

/-- Witness for `c5` at a concrete input. -/
theorem c5_w :
    editFileContent ["a.html".toList] 0
        (editFileContent ["a.html".toList] 0 ("hi\n".toList)) =
      editFileContent ["a.html".toList] 0 ("hi\n".toList) ∧
    (stitchFile ["a.html".toList] 0
      ((stitchFile ["a.html".toList] 0 ("hi\n".toList)).1)).2 = false :=
  c5.2 ["a.html".toList] 0 ("hi\n".toList) (by decide)

end Prevnext
